import Mathlib

/-!
# Trees of `tree.c`: AVL search tree, Huffman encoding walk, segment tree

A shallow embedding of `src/tree.c` (with the parts of `src/driver.c` that drive it).

The C program uses one record `TNode` for three kinds of tree.  Each kind is embedded as
its own inductive type holding the fields that kind of tree initialises:

* `TNode`    – the search tree (`leaf`, `height`, `data`, children),
* `HuffNode` – the Huffman tree (`leaf`, `str`, `priority`, children),
* `SegNode`  – the segment tree (`leaf`, `low`, `high`, `cnt`, children).

A pointer into a search tree is a *location*: the subtree it points to together with the
chain of `pParent` links above it (`Path`, nearest parent first).  `pParent == NULL` is the
empty chain.  Every C function that follows `pParent` walks that chain.
-/

namespace Tree

/-! ## Faults -/

/-- The ways a call can leave the defined behaviour of the C program. -/
inductive Fault where
  /-- `insertAtTNode` printed "inserting into non-leaf node" and called `exit(-1)`. -/
  | insertNonLeaf
  /-- A child pointer of an empty leaf (`NULL`) was dereferenced. -/
  | nullChild
  /-- The `str` field of an empty leaf, which is never initialised, was read. -/
  | emptyLeafStr
  /-- `strcat` wrote past the 50 bytes of the `encoding` buffer. -/
  | encodingOverflow
  /-- An index outside the `points` array was read. -/
  | pointsIndex
  /-- The recursion did not finish within the fuel given to the model. -/
  | outOfFuel
  /-- In the pointer view: a `pParent` field that is followed or compared does not hold the
  address of the node whose child the node is, so the nodes no longer form a tree. -/
  | strayPointer
  deriving DecidableEq, Repr

/-! ## Search tree: data model -/

/-- The record `Data` of `data.h`: a key and the payload `verification`. -/
structure Data (K V : Type) where
  key : K
  verification : V
  deriving DecidableEq, Repr

/-- Modelled from the spec: `compareData` of `data.h`, which is not part of the sources.
The spec orders records by their key alone ("ordering is lexicographic on the key");
the result is negative, zero or positive like that of `strcmp`.  The order on keys is the
parameter `LinearOrder K`. -/
def compareData {K : Type} [LinearOrder K] (a b : K) : Int :=
  if a < b then -1 else if a = b then 0 else 1

/-- A node of the search tree.  `leaf` is an empty leaf (`leaf == true`, both children
`NULL`); `node` is an internal node (`leaf == false`). -/
inductive TNode (K V : Type) where
  | leaf (height : Int)
  | node (height : Int) (data : Data K V) (pLeft pRight : TNode K V)
  deriving DecidableEq, Repr

/-- One `pParent` link: the parent node as seen from the child a location is in.
`isLeft` tells whether that child is the parent's `pLeft`; `sibling` is the other child. -/
structure Frame (K V : Type) where
  isLeft : Bool
  height : Int
  data : Data K V
  sibling : TNode K V
  deriving DecidableEq, Repr

/-- The chain of parents above a node, nearest parent first. -/
abbrev Path (K V : Type) := List (Frame K V)

variable {K V : Type}

/-- The parent node of a frame, with `c` in the child slot the frame was entered through. -/
def Frame.attach (f : Frame K V) (c : TNode K V) : TNode K V :=
  if f.isLeft then .node f.height f.data c f.sibling else .node f.height f.data f.sibling c

/-- The root of the tree in which subtree `c` sits below the parent chain `p`. -/
def plug (c : TNode K V) : Path K V → TNode K V
  | [] => c
  | f :: p => plug (f.attach c) p

/-- The field `root->leaf`. -/
def TNode.isLeaf : TNode K V → Bool
  | .leaf _ => true
  | .node _ _ _ _ => false

/-- `createTree`: a tree whose root is an empty leaf of height 0 without parent. -/
def createTree : TNode K V := .leaf 0

/-- `subTreeHeight`: the stored `height` field. -/
def subTreeHeight : TNode K V → Int
  | .leaf h => h
  | .node h _ _ _ => h

/-- `getBalance`: 0 at a leaf, else the difference of the children's stored heights. -/
def getBalance : TNode K V → Int
  | .leaf _ => 0
  | .node _ _ l r => subTreeHeight l - subTreeHeight r

/-- `searchTreeRec`: walks down from `root`, which sits below the parent chain `p`, and
returns the location it stops at. -/
def searchTreeRec [LinearOrder K] : TNode K V → K → Path K V → TNode K V × Path K V
  | .leaf h, _, p => (.leaf h, p)
  | .node h d l r, key, p =>
    if compareData key d.key = 0 then (.node h d l r, p)
    else if compareData key d.key < 0 then searchTreeRec l key (⟨true, h, d, r⟩ :: p)
    else searchTreeRec r key (⟨false, h, d, l⟩ :: p)

/-- `searchTree`: the search from the root of the tree. -/
def searchTree [LinearOrder K] (t : TNode K V) (key : K) : TNode K V × Path K V :=
  searchTreeRec t key []

/-- `updateHeights`: recomputes the height of the node at a location and then of every
node on its parent chain; returns the root of the tree.  (The call on `NULL`, which does
nothing, is made by the callers.) -/
def updateHeights : TNode K V → Path K V → Except Fault (TNode K V)
  | .leaf _, _ => .error .nullChild
  | .node _ d l r, [] =>
    .ok (.node ((if subTreeHeight l > subTreeHeight r then subTreeHeight l
      else subTreeHeight r) + 1) d l r)
  | .node _ d l r, f :: p =>
    updateHeights (f.attach (.node ((if subTreeHeight l > subTreeHeight r
      then subTreeHeight l else subTreeHeight r) + 1) d l r)) p

/-- `rebalanceTree( t, x )`: the body of the C function is empty (all of it is commented
out), so the tree is returned as it is.  The node `x` is not an argument here: nothing
reads it. -/
def rebalanceTree (t : TNode K V) : TNode K V := t

/-- `attachLeafNodes` on the node `ins` of height field `h` whose `data` will be `d`: the
node becomes internal with two fresh empty leaves of height 0. -/
def attachLeafNodes (h : Int) (d : Data K V) : TNode K V :=
  .node h d (.leaf 0) (.leaf 0)

/-- `insertAtTNode`: exits when `ins` is not a leaf; otherwise attaches two leaves, updates
the heights upwards and stores the data.  Returns the root of the tree. -/
def insertAtTNode (ins : TNode K V × Path K V) (tData : Data K V) :
    Except Fault (TNode K V) :=
  match ins with
  | (.node _ _ _ _, _) => .error .insertNonLeaf
  | (.leaf h, p) => updateHeights (attachLeafNodes h tData) p

/-- `insertTree`: search, then insert at the node found. -/
def insertTree [LinearOrder K] (t : TNode K V) (tData : Data K V) :
    Except Fault (TNode K V) :=
  insertAtTNode (searchTree t tData.key) tData

/-- `insertTreeBalanced`: search, insert at the node found, then `rebalanceTree`. -/
def insertTreeBalanced [LinearOrder K] (t : TNode K V) (tData : Data K V) :
    Except Fault (TNode K V) :=
  match insertAtTNode (searchTree t tData.key) tData with
  | .error e => .error e
  | .ok t1 => .ok (rebalanceTree t1)

/-- `removeNextInorder( pRoot )` for `*pRoot` = the given subtree below the chain `p`:
walks to the leftmost internal node `next`, puts `next->pRight` in its place and frees the
empty left leaf.  Returns `next->data`, the subtree now standing where `next` was, and the
parent chain of that place (which is `next->pParent` and the links above it). -/
def removeNextInorder : TNode K V → Path K V → Except Fault (Data K V × TNode K V × Path K V)
  | .leaf _, _ => .error .nullChild
  | .node h d l r, p =>
    if l.isLeaf then .ok (d, r, p)
    else removeNextInorder l (⟨true, h, d, r⟩ :: p)

/-- `updateHeights( update )` where `update` is the parent of the subtree `c` that sits
below the chain `p`; when the chain is empty `update` is `NULL` and nothing is done.
Returns the root of the tree. -/
def updateHeightsAbove (c : TNode K V) : Path K V → Except Fault (TNode K V)
  | [] => .ok c
  | f :: p => updateHeights (f.attach c) p

/-- `removeTree`: returns the removed `Data*` (`none` for `NULL`) and the root of the tree
afterwards.  In the case of two internal children the chain handed to
`removeNextInorder` starts at `del`; the assignment `del->data = next->data` is the new
`data` of the frame of `del` in the chain above the place `next` was taken from. -/
def removeTree [LinearOrder K] (t : TNode K V) (key : K) :
    Except Fault (Option (Data K V) × TNode K V) :=
  match searchTree t key with
  | (.leaf _, _) => .ok (none, t)
  | (.node h d l r, p) =>
    if l.isLeaf then
      match updateHeightsAbove r p with
      | .error e => .error e
      | .ok t1 => .ok (some d, rebalanceTree t1)
    else if r.isLeaf then
      match updateHeightsAbove l p with
      | .error e => .error e
      | .ok t1 => .ok (some d, rebalanceTree t1)
    else
      match removeNextInorder r [] with
      | .error e => .error e
      | .ok (nd, c, inner) =>
        match updateHeightsAbove c (inner ++ ⟨false, h, nd, l⟩ :: p) with
        | .error e => .error e
        | .ok t1 => .ok (some d, rebalanceTree t1)

/-- In-order sequence of the records stored in the internal nodes. -/
def inorder : TNode K V → List (Data K V)
  | .leaf _ => []
  | .node _ d l r => inorder l ++ d :: inorder r

/-- The keys stored in the tree, in in-order sequence. -/
def keys (t : TNode K V) : List K := (inorder t).map Data.key

/-- BST order: at every internal node all keys of the left subtree are strictly smaller
and all keys of the right subtree strictly greater than the node's key. -/
def BST [LinearOrder K] : TNode K V → Prop
  | .leaf _ => True
  | .node _ d l r => (∀ k ∈ keys l, k < d.key) ∧ (∀ k ∈ keys r, d.key < k) ∧ BST l ∧ BST r

/-- `BST` can be decided by running over the tree. -/
def BST.dec [LinearOrder K] : (t : TNode K V) → Decidable (BST t)
  | .leaf _ => isTrue trivial
  | .node _ d l r =>
    have := BST.dec l
    have := BST.dec r
    (inferInstance : Decidable ((∀ k ∈ keys l, k < d.key) ∧ (∀ k ∈ keys r, d.key < k) ∧
      BST l ∧ BST r))

instance [LinearOrder K] (t : TNode K V) : Decidable (BST t) := BST.dec t

/-- Every internal node satisfies `|height(left) - height(right)| <= 1` on the stored
heights, which is what `checkAVLTree` tests through `getBalance`. -/
def Balanced : TNode K V → Prop
  | .leaf _ => True
  | .node h d l r => -1 ≤ getBalance (.node h d l r) ∧ getBalance (.node h d l r) ≤ 1
      ∧ Balanced l ∧ Balanced r

/-- Inserts the records of a list one after the other with `insertTreeBalanced`. -/
def insertAll [LinearOrder K] (t : TNode K V) : List (Data K V) → Except Fault (TNode K V)
  | [] => .ok t
  | d :: ds =>
    match insertTreeBalanced t d with
    | .error e => .error e
    | .ok t1 => insertAll t1 ds

/-- Removes the keys of a list one after the other with `removeTree`; returns what each
call returned and the tree after the last call. -/
def removeAll [LinearOrder K] (t : TNode K V) :
    List K → Except Fault (List (Option (Data K V)) × TNode K V)
  | [] => .ok ([], t)
  | k :: ks =>
    match removeTree t k with
    | .error e => .error e
    | .ok (r, t1) =>
      match removeAll t1 ks with
      | .error e => .error e
      | .ok (rs, t2) => .ok (r :: rs, t2)

/-- The records that precede a location in the in-order sequence of the whole tree. -/
def before : Path K V → List (Data K V)
  | [] => []
  | f :: p => before p ++ (if f.isLeft then [] else inorder f.sibling ++ [f.data])

/-- The records that follow a location in the in-order sequence of the whole tree. -/
def after : Path K V → List (Data K V)
  | [] => []
  | f :: p => (if f.isLeft then f.data :: inorder f.sibling else []) ++ after p

/-- An operation of a client on the search tree. -/
inductive Op (K V : Type) where
  | insert (d : Data K V)
  | remove (key : K)

/-- One operation: `insertTreeBalanced( t, d )` or `removeTree( t, key )` (whose returned
record is dropped here). -/
def applyOp [LinearOrder K] (t : TNode K V) : Op K V → Except Fault (TNode K V)
  | .insert d => insertTreeBalanced t d
  | .remove key =>
    match removeTree t key with
    | .error e => .error e
    | .ok (_, t1) => .ok t1

/-- Runs a sequence of operations; returns the tree after each of them, in order. -/
def runOps [LinearOrder K] (t : TNode K V) : List (Op K V) → Except Fault (List (TNode K V))
  | [] => .ok []
  | op :: ops =>
    match applyOp t op with
    | .error e => .error e
    | .ok t1 =>
      match runOps t1 ops with
      | .error e => .error e
      | .ok ts => .ok (t1 :: ts)

/-- The sequence of operations never inserts a key that is present at that moment, where
`present` lists the keys present before the first operation. -/
def FreshInserts [DecidableEq K] : List K → List (Op K V) → Prop
  | _, [] => True
  | present, .insert d :: ops => d.key ∉ present ∧ FreshInserts (d.key :: present) ops
  | present, .remove key :: ops => FreshInserts (present.filter (· ≠ key)) ops

/-- Stored heights are exact: every leaf has height 0 and the height field of every
internal node is `1 + max(height(left), height(right))` of its children's fields. -/
def HeightsExact : TNode K V → Prop
  | .leaf h => h = 0
  | .node h _ l r =>
    h = 1 + max (subTreeHeight l) (subTreeHeight r) ∧ HeightsExact l ∧ HeightsExact r

/-- The height of a tree as a shape: 0 for a leaf, one more than the higher child for an
internal node. -/
def treeHeight : TNode K V → Int
  | .leaf _ => 0
  | .node _ _ l r => 1 + max (treeHeight l) (treeHeight r)

/-! ## Segment tree -/

/-- The operations on C `double` that the segment tree uses: `==`, `<` and `-`.  Nothing
is assumed about them, so what is proved for every instance holds for IEEE arithmetic. -/
class CDouble (R : Type) where
  eq : R → R → Bool
  lt : R → R → Bool
  sub : R → R → R

/-- Integers as `double` values: on integers of small magnitude the three operations of
`double` are exact. -/
instance : CDouble Int where
  eq a b := decide (a = b)
  lt a b := decide (a < b)
  sub a b := a - b

/-- A node of the segment tree.  `leaf` is an empty leaf made by `attachLeafNodes` (its
`low`, `high` and `cnt` are never set); `node` is a node made by `constructSegmentTree`. -/
inductive SegNode (R : Type) where
  | leaf
  | node (low high : R) (cnt : Int) (pLeft pRight : SegNode R)
  deriving DecidableEq, Repr

/-- The array read `points[i]` for an `int` index. -/
def readPoint {R : Type} (points : List R) (i : Int) : Except Fault R :=
  if 0 ≤ i then
    match points.get? i.toNat with
    | some x => .ok x
    | none => .error .pointsIndex
  else .error .pointsIndex

/-- `constructSegmentTree( points, low, high )`.  The recursion of the C function is
bounded here by `fuel`, the number of nested calls allowed. -/
def constructSegmentTree {R : Type} (points : List R) :
    Nat → Int → Int → Except Fault (SegNode R)
  | 0, _, _ => .error .outOfFuel
  | fuel + 1, low, high =>
    match readPoint points low, readPoint points high with
    | .error e, _ => .error e
    | _, .error e => .error e
    | .ok lo, .ok hi =>
      if low = high then .ok (.node lo hi 0 .leaf .leaf)
      else
        match constructSegmentTree points fuel low (Int.tdiv (high - low) 2 + low),
          constructSegmentTree points fuel (Int.tdiv (high - low) 2 + low + 1) high with
        | .error e, _ => .error e
        | _, .error e => .error e
        | .ok l, .ok r => .ok (.node lo hi 0 l r)

/-- `insertSegment( root, segmentStart, segmentEnd )`. -/
def insertSegment {R : Type} [CDouble R] : SegNode R → R → R → SegNode R
  | .leaf, _, _ => .leaf
  | .node lo hi cnt l r, segmentStart, segmentEnd =>
    if CDouble.eq segmentStart lo || CDouble.eq segmentEnd hi then .node lo hi cnt l r
    else if CDouble.lt (CDouble.sub hi lo) segmentEnd then .node lo hi (cnt + 1) l r
    else .node lo hi cnt (insertSegment l segmentStart segmentEnd)
      (insertSegment r segmentStart segmentEnd)

/-- `lineStabQuery( root, queryPoint )`. -/
def lineStabQuery {R : Type} [CDouble R] : SegNode R → R → Int
  | .leaf, _ => 0
  | .node lo hi cnt l r, queryPoint =>
    if CDouble.eq queryPoint lo || CDouble.eq queryPoint hi then 0
    else lineStabQuery l queryPoint + lineStabQuery r queryPoint + cnt

/-- Inserts a list of intervals `(start, end)` one after the other, as the loop of
`carTraversalTree` does. -/
def insertSegments {R : Type} [CDouble R] (root : SegNode R) : List (R × R) → SegNode R
  | [] => root
  | s :: ss => insertSegments (insertSegment root s.1 s.2) ss

/-- The number of intervals of the list that have `q` strictly inside. -/
def countStabbed (segs : List (Int × Int)) (q : Int) : Int :=
  ((segs.filter (fun s => decide (s.1 < q ∧ q < s.2))).length : Int)

/-- The number of bottom nodes: the nodes made for a single index, with two empty leaves
below them. -/
def bottomCount {R : Type} : SegNode R → Nat
  | .leaf => 0
  | .node _ _ _ .leaf .leaf => 1
  | .node _ _ _ l r => bottomCount l + bottomCount r

/-- The tree is the one described for the index range `[l, h]`: its root has
`low = points[l]`, `high = points[h]` and `cnt = 0`; for `l = h` it is a bottom node, and
otherwise its children are the trees for `[l, mid]` and `[mid + 1, h]` with
`mid = l + (h - l) / 2`. -/
def BuiltFor {R : Type} (points : List R) : SegNode R → Int → Int → Prop
  | .leaf, _, _ => False
  | .node lo hi cnt pl pr, l, h =>
    readPoint points l = .ok lo ∧ readPoint points h = .ok hi ∧ cnt = 0 ∧
    (if l = h then pl = .leaf ∧ pr = .leaf
     else BuiltFor points pl l (l + (h - l) / 2) ∧
       BuiltFor points pr (l + (h - l) / 2 + 1) h)

/-- The span `[low, high]` of the node contains the point. -/
def SegNode.covers : SegNode Int → Int → Bool
  | .leaf, _ => false
  | .node lo hi _ _ _, q => decide (lo ≤ q ∧ q ≤ hi)

/-- The sum of `cnt` over the nodes on the path from the node down to the bottom node for
`q` (at every node the child whose span contains `q`), leaving out the nodes whose `low`
or `high` equals `q`. -/
def pathSum : SegNode Int → Int → Int
  | .leaf, _ => 0
  | .node lo hi cnt l r, q =>
    (if q = lo ∨ q = hi then 0 else cnt) +
      (if l.covers q then pathSum l q else if r.covers q then pathSum r q else 0)

/-! ## Huffman tree -/

/-- A node of the Huffman tree.  `leaf` is an empty leaf made by `attachLeafNodes` (its
`str` is never set).  A symbol node is a `node` with two empty leaves below it; a merged
node is a `node` with the two merged nodes below it. -/
inductive HuffNode where
  | leaf
  | node (str : List Char) (priority : Int) (pLeft pRight : HuffNode)
  deriving DecidableEq, Repr

/-- The C string `tempstr` holding the one character `c`: empty when `c` is NUL. -/
def tempstr (c : Char) : List Char := if c = Char.ofNat 0 then [] else [c]

/-- `strchr( s, c ) != 0`: `c` occurs in `s`, or `c` is the terminating NUL. -/
def strchr (s : List Char) (c : Char) : Bool := decide (c ∈ s) || decide (c = Char.ofNat 0)

/-- The field `root->str`, which only a `node` has. -/
def HuffNode.str? : HuffNode → Option (List Char)
  | .leaf => none
  | .node str _ _ _ => some str

/-- `strcat( encoding, bit )` into the 50-byte buffer: the string and its terminating NUL
have to fit. -/
def strcatEncoding (encoding : List Char) (bit : Char) : Except Fault (List Char) :=
  if encoding.length + 2 ≤ 50 then .ok (encoding ++ [bit]) else .error .encodingOverflow

/-- `printHuffmanEncoding( root, c )`: `encoding` is the content of the buffer, a C
string, when the loop is entered at `root`; the result is the string that is printed.
`malloc` does not initialise the buffer, so the content the first `strcat` finds is not
fixed by the program; it is the argument of the call on the root. -/
def printHuffmanEncoding : HuffNode → Char → List Char → Except Fault (List Char)
  | .leaf, _, _ => .error .emptyLeafStr
  | .node str _ l r, c, encoding =>
    if tempstr c = str then .ok encoding
    else
      match l.str? with
      | none => .error .emptyLeafStr
      | some lstr =>
        if strchr lstr c then
          match strcatEncoding encoding (Char.ofNat 48) with
          | .error e => .error e
          | .ok enc => printHuffmanEncoding l c enc
        else
          match strcatEncoding encoding (Char.ofNat 49) with
          | .error e => .error e
          | .ok enc => printHuffmanEncoding r c enc

/-- The symbol node for the character `ch` with weight `w`, as `testHuffmanEncoding`
makes it. -/
def symbolNode (ch : Char) (w : Int) : HuffNode := .node [ch] w .leaf .leaf

/-- The characters of the symbol nodes, from left to right. -/
def symbols : HuffNode → List Char
  | .leaf => []
  | .node str _ .leaf .leaf => str
  | .node _ _ l r => symbols l ++ symbols r

/-- A Huffman tree: every symbol node carries one character that is not NUL, and the
string of every other node is the string of its left child followed by that of its
right child. -/
def HuffTree : HuffNode → Prop
  | .leaf => False
  | .node str _ .leaf .leaf => str.length = 1 ∧ Char.ofNat 0 ∉ str
  | .node _ _ .leaf (.node _ _ _ _) => False
  | .node _ _ (.node _ _ _ _) .leaf => False
  | .node str _ (.node ls lw ll lr) (.node rs rw rl rr) =>
    str = ls ++ rs ∧ HuffTree (.node ls lw ll lr) ∧ HuffTree (.node rs rw rl rr)

/-- `HuffTree` can be decided by running over the tree. -/
def HuffTree.dec : (t : HuffNode) → Decidable (HuffTree t)
  | .leaf => isFalse (fun h => h)
  | .node str _ .leaf .leaf =>
    (inferInstance : Decidable (str.length = 1 ∧ Char.ofNat 0 ∉ str))
  | .node _ _ .leaf (.node _ _ _ _) => isFalse (fun h => h)
  | .node _ _ (.node _ _ _ _) .leaf => isFalse (fun h => h)
  | .node str _ (.node ls lw ll lr) (.node rs rw rl rr) =>
    have := HuffTree.dec (.node ls lw ll lr)
    have := HuffTree.dec (.node rs rw rl rr)
    (inferInstance : Decidable (str = ls ++ rs ∧ HuffTree (.node ls lw ll lr) ∧
      HuffTree (.node rs rw rl rr)))

instance (t : HuffNode) : Decidable (HuffTree t) := HuffTree.dec t

/-- Reads a bit string from a node: `0` goes to the left child, `1` to the right child. -/
def follow : HuffNode → List Char → Option HuffNode
  | t, [] => some t
  | .leaf, _ :: _ => none
  | .node _ _ l r, b :: bs =>
    if b = Char.ofNat 48 then follow l bs
    else if b = Char.ofNat 49 then follow r bs
    else none

/-- A tree of `n + 1` symbol nodes in which every right child is a symbol node: the symbol
with code `65 + n` is the left-most and deepest one, `n` edges below the root. -/
def leftChain : Nat → HuffNode
  | 0 => symbolNode (Char.ofNat 65) 1
  | n + 1 =>
    match (leftChain n).str? with
    | none => .leaf
    | some s => .node (s ++ [Char.ofNat (65 + (n + 1))]) 1 (leftChain n)
        (symbolNode (Char.ofNat (65 + (n + 1))) 1)

/-! ## Huffman tree: the merge loop of `testHuffmanEncoding` -/

/-- The field `root->priority`; an empty leaf has none and reads as 0 here (empty leaves
never enter the queue). -/
def HuffNode.priority : HuffNode → Int
  | .leaf => 0
  | .node _ p _ _ => p

/-- The C string `root->str`; an empty leaf has none and reads as empty here. -/
def HuffNode.str : HuffNode → List Char
  | .leaf => []
  | .node s _ _ _ => s

/-- All ways to take one element out of a list: the element and the elements left. -/
def picks {α : Type} : List α → List (α × List α)
  | [] => []
  | x :: xs => (x, xs) :: (picks xs).map (fun p => (p.1, x :: p.2))

/-- Modelled from the spec: `isEmptyPQ` of `priorityQueue.h`, which is not part of the
sources.  The queue is the list of the nodes it holds. -/
def isEmptyPQ (q : List HuffNode) : Bool := q.isEmpty

/-- Modelled from the spec: `insertPQ` of `priorityQueue.h`, which is not part of the
sources: the node is added to the nodes held. -/
def insertPQ (q : List HuffNode) (x : HuffNode) : List HuffNode := x :: q

/-- Modelled from the spec: `removePQ` of `priorityQueue.h`, which is not part of the
sources.  The spec has a min-priority queue keyed by weight whose "weight ties may
resolve arbitrarily": the result lists every node of least priority the call may return,
each with the queue that is left.  On the empty queue nothing is listed. -/
def removePQ (q : List HuffNode) : List (HuffNode × List HuffNode) :=
  (picks q).filter (fun p => q.all (fun y => decide (p.1.priority ≤ y.priority)))

/-- The body of the merge loop between the two `removePQ` calls: the new node `root` with
the summed priority, the concatenated strings and `min1`, `min2` attached as children. -/
def mergeNodes (min1 min2 : HuffNode) : HuffNode :=
  .node (min1.str ++ min2.str) (min1.priority + min2.priority) min1 min2

/-- The loop `while( !isEmptyPQ(ppq) )` of `testHuffmanEncoding`, entered with `min1` and
the queue `q`; lists the node `root = min1` of every run the queue allows.  `fuel` bounds
the number of iterations. -/
def mergeLoop : Nat → HuffNode → List HuffNode → List HuffNode
  | 0, min1, q => if isEmptyPQ q then [min1] else []
  | fuel + 1, min1, q =>
    if isEmptyPQ q then [min1]
    else
      (removePQ q).flatMap fun p2 =>
        (removePQ (insertPQ p2.2 (mergeNodes min1 p2.1))).flatMap fun p1 =>
          mergeLoop fuel p1.1 p1.2

/-- The queue after the leaf loop of `testHuffmanEncoding`: one symbol node per character
with its count, inserted in the order of the list. -/
def leafQueue (weights : List (Char × Int)) : List HuffNode :=
  weights.foldl (fun q cw => insertPQ q (symbolNode cw.1 cw.2)) []

/-- The part "Build Huffman encoding tree" of `testHuffmanEncoding` on a filled queue: the
first `removePQ`, then the merge loop.  Lists the root of every run the queue allows; every
iteration takes one node out of the queue, so its length is fuel enough. -/
def buildHuffmanTree (q : List HuffNode) : List HuffNode :=
  (removePQ q).flatMap fun p1 => mergeLoop p1.2.length p1.1 p1.2

/-- The string printed by `printHuffmanEncoding( root, c )` when the first `strcat` finds
the content `enc` in the buffer, if the call returns. -/
def codeOf (root : HuffNode) (c : Char) (enc : List Char) : Option (List Char) :=
  match printHuffmanEncoding root c enc with
  | .ok bits => some bits
  | .error _ => none

/-- The field `root->pLeft`, which only a `node` has. -/
def HuffNode.pLeft? : HuffNode → Option HuffNode
  | .leaf => none
  | .node _ _ l _ => some l

/-- The weights a:4, b:2, c:1, d:1. -/
def weightsABCD : List (Char × Int) := [('a', 4), ('b', 2), ('c', 1), ('d', 1)]

/-- Two symbols are siblings: some node of the tree has their two symbol nodes as its
children, in either order. -/
def siblings (c d : Char) : HuffNode → Bool
  | .leaf => false
  | .node _ _ l r =>
    (decide (l.str = [c]) && decide (r.str = [d]) && decide (l.pLeft? = some .leaf) &&
        decide (r.pLeft? = some .leaf))
      || (decide (l.str = [d]) && decide (r.str = [c]) && decide (l.pLeft? = some .leaf) &&
        decide (r.pLeft? = some .leaf))
      || siblings c d l || siblings c d r

/-- The total weighted length of the strings `printHuffmanEncoding` prints for the symbols
of `weights`, the sum of weight times length of the printed string, when the call for the
symbol `c` finds the content `buf c` in its buffer; `none` if a call does not return. -/
def codeCost (root : HuffNode) (buf : Char → List Char) : List (Char × Int) → Option Int
  | [] => some 0
  | cw :: rest =>
    match codeOf root cw.1 (buf cw.1), codeCost root buf rest with
    | some bits, some n => some (cw.2 * bits.length + n)
    | _, _ => none

/-- A binary prefix code for the symbols `cs`: no code word is a prefix of the code word
of another symbol. -/
def PrefixCode (cs : List Char) (code : Char → List Bool) : Prop :=
  ∀ c ∈ cs, ∀ d ∈ cs, c ≠ d → ¬ code c <+: code d

/-- The total weighted length of a code: the sum of weight times code word length. -/
def weightedLength (weights : List (Char × Int)) (code : Char → List Bool) : Int :=
  (weights.map (fun cw => cw.2 * ((code cw.1).length : Int))).sum

/-- The Kraft sum of a list of code words: the sum of `2 ^ (- length)`. -/
def kraftSum (ws : List (List Bool)) : ℚ :=
  (ws.map (fun w => (1 / 2 : ℚ) ^ w.length)).sum

/-- The rest of a code word that starts with the bit `b`. -/
def tailIf (b : Bool) : List Bool → Option (List Bool)
  | [] => none
  | c :: w => if c = b then some w else none

/-- The two printed strings have the same length, agree on every character but the last
and differ in the last one. -/
def differInLastBit : Option (List Char) → Option (List Char) → Bool
  | some bc, some bd =>
    decide (bc.length = bd.length) && decide (bc.dropLast = bd.dropLast) &&
      decide (bc.getLast? ≠ bd.getLast?)
  | _, _ => false

/-- A node in the pointer view. -/
inductive PNode (K V : Type) where
  | leaf (addr : Nat) (pParent : Option Nat) (height : Int)
  | node (addr : Nat) (pParent : Option Nat) (height : Int) (data : Data K V)
      (pLeft pRight : PNode K V)
  deriving DecidableEq, Repr

/-- The node one level up, seen from the child a location is in. -/
structure PFrame (K V : Type) where
  isLeft : Bool
  addr : Nat
  pParent : Option Nat
  height : Int
  data : Data K V
  sibling : PNode K V
  deriving DecidableEq, Repr

/-- The nodes above a location, nearest first. -/
abbrev PPath (K V : Type) := List (PFrame K V)

/-- The `struct Tree` in the pointer view: `top` is the node that is nobody's child, with
everything linked below it; `root` is the address stored in `t->root`; `next` is the
address the next `malloc` returns. -/
structure PTree (K V : Type) where
  top : PNode K V
  root : Nat
  next : Nat
  deriving DecidableEq, Repr

/-- The address of a node. -/
def PNode.addr : PNode K V → Nat
  | .leaf a _ _ => a
  | .node a _ _ _ _ _ => a

/-- The field `pParent` of a node. -/
def PNode.parent : PNode K V → Option Nat
  | .leaf _ pp _ => pp
  | .node _ pp _ _ _ _ => pp

/-- The assignment `n->pParent = pp`. -/
def PNode.setParent (pp : Option Nat) : PNode K V → PNode K V
  | .leaf a _ h => .leaf a pp h
  | .node a _ h d l r => .node a pp h d l r

/-- The field `leaf` of a node. -/
def PNode.isLeaf : PNode K V → Bool
  | .leaf _ _ _ => true
  | .node _ _ _ _ _ _ => false

/-- `subTreeHeight` in the pointer view: the stored `height` field. -/
def PNode.subTreeHeight : PNode K V → Int
  | .leaf _ _ h => h
  | .node _ _ h _ _ _ => h

/-- The node of a frame with `c` in the child slot the frame was entered through. -/
def PFrame.attach (f : PFrame K V) (c : PNode K V) : PNode K V :=
  if f.isLeft then .node f.addr f.pParent f.height f.data c f.sibling
  else .node f.addr f.pParent f.height f.data f.sibling c

/-- The top node of the structure in which `c` sits below the nodes `p`. -/
def PNode.plug (c : PNode K V) : PPath K V → PNode K V
  | [] => c
  | f :: p => PNode.plug (f.attach c) p

/-- The location of the node with address `a`, searched below a node that sits below `p`. -/
def PNode.locate (a : Nat) : PNode K V → PPath K V → Option (PNode K V × PPath K V)
  | .leaf b pp h, p => if b = a then some (.leaf b pp h, p) else none
  | .node b pp h d l r, p =>
    if b = a then some (.node b pp h d l r, p)
    else
      match PNode.locate a l (⟨true, b, pp, h, d, r⟩ :: p) with
      | some x => some x
      | none => PNode.locate a r (⟨false, b, pp, h, d, l⟩ :: p)

/-- `createTree` in the pointer view: one empty leaf at address 0, without parent. -/
def PTree.createTree : PTree K V := ⟨.leaf 0 none 0, 0, 1⟩

/-- `searchTreeRec` in the pointer view. -/
def PNode.searchTreeRec [LinearOrder K] :
    PNode K V → K → PPath K V → PNode K V × PPath K V
  | .leaf a pp h, _, p => (.leaf a pp h, p)
  | .node a pp h d l r, key, p =>
    if compareData key d.key = 0 then (.node a pp h d l r, p)
    else if compareData key d.key < 0 then
      PNode.searchTreeRec l key (⟨true, a, pp, h, d, r⟩ :: p)
    else PNode.searchTreeRec r key (⟨false, a, pp, h, d, l⟩ :: p)

/-- `searchTree` in the pointer view: the search starts at the node `t->root` points to. -/
def PTree.searchTree [LinearOrder K] (t : PTree K V) (key : K) :
    Except Fault (PNode K V × PPath K V) :=
  match t.top.locate t.root [] with
  | none => .error .strayPointer
  | some (n, p) => .ok (PNode.searchTreeRec n key p)

/-- `updateHeights` in the pointer view: after the height of the node is recomputed the
call goes on with `root->pParent`; with `NULL` there it ends and the nodes above stay as
they are.  Returns the top node. -/
def PNode.updateHeights : PNode K V → PPath K V → Except Fault (PNode K V)
  | .leaf _ _ _, _ => .error .nullChild
  | .node a none _ d l r, p =>
    .ok (PNode.plug (.node a none ((if l.subTreeHeight > r.subTreeHeight
      then l.subTreeHeight else r.subTreeHeight) + 1) d l r) p)
  | .node _ (some _) _ _ _ _, [] => .error .strayPointer
  | .node a (some b) _ d l r, f :: p =>
    if f.addr = b then
      PNode.updateHeights (f.attach (.node a (some b) ((if l.subTreeHeight > r.subTreeHeight
        then l.subTreeHeight else r.subTreeHeight) + 1) d l r)) p
    else .error .strayPointer

/-- `updateHeights( update )` for a pointer `update` read from a `pParent` field of the
node `c` that sits below `p`: nothing is done for `NULL`. -/
def PNode.updateHeightsAt (update : Option Nat) (c : PNode K V) :
    PPath K V → Except Fault (PNode K V)
  | [] =>
    match update with
    | none => .ok c
    | some _ => .error .strayPointer
  | f :: p =>
    match update with
    | none => .ok (PNode.plug c (f :: p))
    | some b => if f.addr = b then PNode.updateHeights (f.attach c) p else .error .strayPointer

/-- `attachLeafNodes( ins )` in the pointer view, for the node at address `a` whose data
will be `d`: two cells are allocated, at `next` for `pLeft` and `next + 1` for `pRight`,
both leaves of height 0 with `pParent = ins`. -/
def PNode.attachLeafNodes (a : Nat) (pp : Option Nat) (h : Int) (d : Data K V)
    (next : Nat) : PNode K V :=
  .node a pp h d (.leaf next (some a) 0) (.leaf (next + 1) (some a) 0)

/-- `insertAtTNode` in the pointer view. -/
def PTree.insertAtTNode (t : PTree K V) (ins : PNode K V × PPath K V) (tData : Data K V) :
    Except Fault (PTree K V) :=
  match ins with
  | (.node _ _ _ _ _ _, _) => .error .insertNonLeaf
  | (.leaf a pp h, p) =>
    match PNode.updateHeights (PNode.attachLeafNodes a pp h tData t.next) p with
    | .error e => .error e
    | .ok top => .ok ⟨top, t.root, t.next + 2⟩

/-- `rebalanceTree` in the pointer view: the C body is empty. -/
def PTree.rebalanceTree (t : PTree K V) : PTree K V := t

/-- `insertTreeBalanced` in the pointer view. -/
def PTree.insertTreeBalanced [LinearOrder K] (t : PTree K V) (tData : Data K V) :
    Except Fault (PTree K V) :=
  match t.searchTree tData.key with
  | .error e => .error e
  | .ok ins =>
    match t.insertAtTNode ins tData with
    | .error e => .error e
    | .ok t1 => .ok t1.rebalanceTree

/-- The write `*parentDelPtr = ...` (and the like in the rotations) reaches the slot that
holds the node at address `a`: with `pParent == NULL` that is `t->root` and the node is
the top node; otherwise `pParent` is the node one level up and the test
`pParent->pLeft == node` picks the slot the node is in. -/
def PNode.slotFound (a : Nat) (pp : Option Nat) : PPath K V → Bool
  | [] => pp.isNone
  | f :: _ =>
    match pp with
    | none => false
    | some b =>
      decide (f.addr = b) &&
        (decide ((if f.isLeft then a else f.sibling.addr) = a) == f.isLeft)

/-- `removeNextInorder( pRoot )` in the pointer view, for `*pRoot` = the node given:
returns `next->data`, `next->pParent`, the node `next->pRight` now standing in the slot
(its `pParent` set to `next->pParent`), and the nodes above that slot. -/
def PNode.removeNextInorder :
    PNode K V → PPath K V → Except Fault (Data K V × Option Nat × PNode K V × PPath K V)
  | .leaf _ _ _, _ => .error .nullChild
  | .node a pp h d l r, p =>
    if l.isLeaf then .ok (d, pp, r.setParent pp, p)
    else PNode.removeNextInorder l (⟨true, a, pp, h, d, r⟩ :: p)

/-- The end of `removeTree`, `updateHeights(update); rebalanceTree(t, update);`, with the
new value of `t->root`. -/
def PTree.finishRemove (t : PTree K V) (root : Nat) (update : Option Nat) (c : PNode K V)
    (p : PPath K V) (ret : Data K V) : Except Fault (Option (Data K V) × PTree K V) :=
  match PNode.updateHeightsAt update c p with
  | .error e => .error e
  | .ok top => .ok (some ret, PTree.rebalanceTree ⟨top, root, t.next⟩)

/-- `removeTree` in the pointer view. -/
def PTree.removeTree [LinearOrder K] (t : PTree K V) (key : K) :
    Except Fault (Option (Data K V) × PTree K V) :=
  match t.searchTree key with
  | .error e => .error e
  | .ok (.leaf _ _ _, _) => .ok (none, t)
  | .ok (.node a pp h d l r, p) =>
    if l.isLeaf then
      if PNode.slotFound a pp p then
        t.finishRemove (if pp.isNone then r.addr else t.root) pp (r.setParent pp) p d
      else .error .strayPointer
    else if r.isLeaf then
      if PNode.slotFound a pp p then
        t.finishRemove (if pp.isNone then l.addr else t.root) pp (l.setParent pp) p d
      else .error .strayPointer
    else
      match PNode.removeNextInorder r [] with
      | .error e => .error e
      | .ok (nd, update, c, inner) =>
        t.finishRemove t.root update c (inner ++ ⟨false, a, pp, h, nd, l⟩ :: p) d

/-- The counterpart of `slotFound` for `leftRotate`, which tests `pParent->pRight` first. -/
def PNode.slotFoundRight (a : Nat) (pp : Option Nat) : PPath K V → Bool
  | [] => pp.isNone
  | f :: _ =>
    match pp with
    | none => false
    | some b =>
      decide (f.addr = b) &&
        (decide ((if f.isLeft then f.sibling.addr else a) = a) == !f.isLeft)

/-- `rightRotate( oldRoot )` in the pointer view, for `oldRoot` at a location; returns
the top node.  With an empty leaf as `oldRoot` or as `oldRoot->pLeft` a `NULL` child is
dereferenced (at the latest in `updateHeights( oldRoot )`). -/
def PNode.rightRotate : PNode K V → PPath K V → Except Fault (PNode K V)
  | .node ax ppx hx dx (.node ay _ hy dy pl pr) c, p =>
    if PNode.slotFound ax ppx p then
      PNode.updateHeights (.node ax (some ay) hx dx (pr.setParent (some ax)) c)
        (⟨false, ay, ppx, hy, dy, pl⟩ :: p)
    else .error .strayPointer
  | _, _ => .error .nullChild

/-- `leftRotate( oldRoot )` in the pointer view, the mirror image of `rightRotate`. -/
def PNode.leftRotate : PNode K V → PPath K V → Except Fault (PNode K V)
  | .node ax ppx hx dx c (.node ay _ hy dy pl pr), p =>
    if PNode.slotFoundRight ax ppx p then
      PNode.updateHeights (.node ax (some ay) hx dx c (pl.setParent (some ax)))
        (⟨true, ay, ppx, hy, dy, pr⟩ :: p)
    else .error .strayPointer
  | _, _ => .error .nullChild

/-- A call `rightRotate( oldRoot )` on a tree: the function gets the node only, so the
field `t->root` stays as it is. -/
def PTree.rightRotate (t : PTree K V) (oldRoot : Nat) : Except Fault (PTree K V) :=
  match t.top.locate oldRoot [] with
  | none => .error .strayPointer
  | some (x, p) =>
    match PNode.rightRotate x p with
    | .error e => .error e
    | .ok top => .ok ⟨top, t.root, t.next⟩

/-- A call `leftRotate( oldRoot )` on a tree: the field `t->root` stays as it is. -/
def PTree.leftRotate (t : PTree K V) (oldRoot : Nat) : Except Fault (PTree K V) :=
  match t.top.locate oldRoot [] with
  | none => .error .strayPointer
  | some (x, p) =>
    match PNode.leftRotate x p with
    | .error e => .error e
    | .ok top => .ok ⟨top, t.root, t.next⟩

/-- Inserts the records of a list one after the other with `insertTreeBalanced`, in the
pointer view. -/
def PTree.insertAll [LinearOrder K] (t : PTree K V) :
    List (Data K V) → Except Fault (PTree K V)
  | [] => .ok t
  | d :: ds =>
    match t.insertTreeBalanced d with
    | .error e => .error e
    | .ok t1 => PTree.insertAll t1 ds

/-- Removes the keys of a list one after the other with `removeTree`, in the pointer
view; returns what each call returned and the tree after the last call. -/
def PTree.removeAll [LinearOrder K] (t : PTree K V) :
    List K → Except Fault (List (Option (Data K V)) × PTree K V)
  | [] => .ok ([], t)
  | k :: ks =>
    match t.removeTree k with
    | .error e => .error e
    | .ok (r, t1) =>
      match PTree.removeAll t1 ks with
      | .error e => .error e
      | .ok (rs, t2) => .ok (r :: rs, t2)

/-- One operation of a client in the pointer view. -/
def PTree.applyOp [LinearOrder K] (t : PTree K V) : Op K V → Except Fault (PTree K V)
  | .insert d => t.insertTreeBalanced d
  | .remove key =>
    match t.removeTree key with
    | .error e => .error e
    | .ok (_, t1) => .ok t1

/-- Runs a sequence of operations in the pointer view; returns the tree after each. -/
def PTree.runOps [LinearOrder K] (t : PTree K V) :
    List (Op K V) → Except Fault (List (PTree K V))
  | [] => .ok []
  | op :: ops =>
    match t.applyOp op with
    | .error e => .error e
    | .ok t1 =>
      match PTree.runOps t1 ops with
      | .error e => .error e
      | .ok ts => .ok (t1 :: ts)

/-- The addresses of the nodes, leaves included. -/
def PNode.addrs : PNode K V → List Nat
  | .leaf a _ _ => [a]
  | .node a _ _ _ l r => a :: (PNode.addrs l ++ PNode.addrs r)

/-- The edge test of `checkAVLTree` at every internal node: the `pParent` field of both
children holds the address of the node. -/
def PNode.EdgesOK : PNode K V → Prop
  | .leaf _ _ _ => True
  | .node a _ _ _ l r =>
    l.parent = some a ∧ r.parent = some a ∧ PNode.EdgesOK l ∧ PNode.EdgesOK r

/-- `EdgesOK` can be decided by running over the nodes. -/
def PNode.EdgesOK.dec : (t : PNode K V) → Decidable (PNode.EdgesOK t)
  | .leaf _ _ _ => isTrue trivial
  | .node a _ _ _ l r =>
    have := PNode.EdgesOK.dec l
    have := PNode.EdgesOK.dec r
    (inferInstance : Decidable (l.parent = some a ∧ r.parent = some a ∧
      PNode.EdgesOK l ∧ PNode.EdgesOK r))

instance (t : PNode K V) : Decidable (PNode.EdgesOK t) := PNode.EdgesOK.dec t

/-- Parent back-references are consistent: `t->root` is the top node, which has no
parent; every other node is the child of the node its `pParent` field names; and no two
nodes share an address. -/
def PTree.ParentsOK (t : PTree K V) : Prop :=
  t.root = t.top.addr ∧ t.top.parent = none ∧ t.top.EdgesOK ∧ t.top.addrs.Nodup

/-- The node without address and `pParent` field: the first embedding. -/
def PNode.erase : PNode K V → TNode K V
  | .leaf _ _ h => .leaf h
  | .node _ _ h d l r => .node h d (PNode.erase l) (PNode.erase r)

/-- The frame without address and `pParent` field. -/
def PFrame.erase (f : PFrame K V) : Frame K V := ⟨f.isLeft, f.height, f.data, f.sibling.erase⟩

/-- The addresses of the nodes above a location, with those of their other subtrees. -/
def PNode.pathAddrs : PPath K V → List Nat
  | [] => []
  | f :: p => f.addr :: (f.sibling.addrs ++ PNode.pathAddrs p)

/-- The nodes above a location are consistent, seen from a node whose `pParent` field is
`pp`: `pp` names the node one level up, whose other child names it too, and so on up to
a node without parent. -/
def PNode.PathOK : Option Nat → PPath K V → Prop
  | pp, [] => pp = none
  | pp, f :: p =>
    pp = some f.addr ∧ f.sibling.parent = some f.addr ∧ f.sibling.EdgesOK ∧
      PNode.PathOK f.pParent p

/-- What every tree of a run satisfies in the pointer view: consistent parent
back-references, and all addresses in use lie below the next one `malloc` returns. -/
def PTree.Inv (t : PTree K V) : Prop :=
  t.ParentsOK ∧ ∀ a ∈ t.top.addrs, a < t.next

/-- Two frames describe the same node up to its stored height: same side, address,
`pParent` field, record and other subtree. -/
def PFrame.SameLinks (f g : PFrame K V) : Prop :=
  g.isLeft = f.isLeft ∧ g.addr = f.addr ∧ g.pParent = f.pParent ∧ g.data = f.data ∧
    g.sibling = f.sibling

/-! ## Example inputs -/

/-- The records with keys "005", "010", "003" of the scenario in the spec, in the order of
insertion. -/
def scenarioData : List (Data (List Char) Nat) :=
  [⟨['0', '0', '5'], 5⟩, ⟨['0', '1', '0'], 10⟩, ⟨['0', '0', '3'], 3⟩]

/-- The tree after the three insertions of the scenario. -/
def scenarioTree : TNode (List Char) Nat :=
  .node 2 ⟨['0', '0', '5'], 5⟩
    (.node 1 ⟨['0', '0', '3'], 3⟩ (.leaf 0) (.leaf 0))
    (.node 1 ⟨['0', '1', '0'], 10⟩ (.leaf 0) (.leaf 0))

/-- Records with the keys "1", "2", "3", in increasing order. -/
def ascendingData : List (Data (List Char) Nat) :=
  [⟨['1'], 1⟩, ⟨['2'], 2⟩, ⟨['3'], 3⟩]

/-- The segment tree that `constructSegmentTree` builds for the points 0, 1, 2, 3. -/
def segTree0123 : SegNode Int :=
  .node 0 3 0
    (.node 0 1 0 (.node 0 0 0 .leaf .leaf) (.node 1 1 0 .leaf .leaf))
    (.node 2 3 0 (.node 2 2 0 .leaf .leaf) (.node 3 3 0 .leaf .leaf))

/-- The segment tree that `constructSegmentTree` builds for the points 0, 3, 5. -/
def segTree035 : SegNode Int :=
  .node 0 5 0
    (.node 0 3 0 (.node 0 0 0 .leaf .leaf) (.node 3 3 0 .leaf .leaf))
    (.node 5 5 0 .leaf .leaf)

/-- A Huffman tree for the symbols `a`, `b`, `c`. -/
def huffABC : HuffNode :=
  .node ['a', 'b', 'c'] 4
    (.node ['a', 'b'] 2 (symbolNode 'a' 1) (symbolNode 'b' 1))
    (symbolNode 'c' 2)

/-- One of the trees the merge loop can build for the weights a:4, b:2, c:1, d:1. -/
def huffABCD : HuffNode :=
  .node ['a', 'b', 'c', 'd'] 8 (symbolNode 'a' 4)
    (.node ['b', 'c', 'd'] 4 (symbolNode 'b' 2)
      (.node ['c', 'd'] 2 (symbolNode 'c' 1) (symbolNode 'd' 1)))

/-- The operations that insert the keys "005", "003", "001", in this order. -/
def descendingOps : List (Op (List Char) Nat) :=
  [.insert ⟨['0', '0', '5'], 5⟩, .insert ⟨['0', '0', '3'], 3⟩, .insert ⟨['0', '0', '1'], 1⟩]

/-- The tree after `descendingOps` in the pointer view: "005" at address 0 is the root,
"003" at address 1 its left child, "001" at address 3 the left child of that. -/
def descendingPTree : PTree (List Char) Nat :=
  ⟨.node 0 none 3 ⟨['0', '0', '5'], 5⟩
    (.node 1 (some 0) 2 ⟨['0', '0', '3'], 3⟩
      (.node 3 (some 1) 1 ⟨['0', '0', '1'], 1⟩ (.leaf 5 (some 3) 0) (.leaf 6 (some 3) 0))
      (.leaf 4 (some 1) 0))
    (.leaf 2 (some 0) 0), 0, 7⟩

/-- The operations that insert the keys "1", "2", "3", in this order. -/
def ascendingOps : List (Op (List Char) Nat) :=
  [.insert ⟨['1'], 1⟩, .insert ⟨['2'], 2⟩, .insert ⟨['3'], 3⟩]

/-- The tree after `ascendingOps` in the pointer view: "1" at address 0 is the root, "2"
at address 2 its right child, "3" at address 4 the right child of that. -/
def ascendingPTree : PTree (List Char) Nat :=
  ⟨.node 0 none 3 ⟨['1'], 1⟩
    (.leaf 1 (some 0) 0)
    (.node 2 (some 0) 2 ⟨['2'], 2⟩
      (.leaf 3 (some 2) 0)
      (.node 4 (some 2) 1 ⟨['3'], 3⟩ (.leaf 5 (some 4) 0) (.leaf 6 (some 4) 0))), 0, 7⟩

/-! ## Search tree: lemmas -/

theorem inorder_attach (f : Frame K V) (c : TNode K V) :
    inorder (f.attach c) =
      (if f.isLeft then [] else inorder f.sibling ++ [f.data]) ++ inorder c ++
      (if f.isLeft then f.data :: inorder f.sibling else []) := by
  cases f with
  | mk b h d s => cases b <;> simp [Frame.attach, inorder]

theorem inorder_plug (c : TNode K V) (p : Path K V) :
    inorder (plug c p) = before p ++ inorder c ++ after p := by
  induction p generalizing c with
  | nil => simp [plug, before, after]
  | cons f p ih => simp [plug, before, after, ih, inorder_attach, List.append_assoc]

theorem before_append (p q : Path K V) : before (p ++ q) = before q ++ before p := by
  induction p with
  | nil => simp [before]
  | cons f p ih => simp [before, ih, List.append_assoc]

theorem after_append (p q : Path K V) : after (p ++ q) = after p ++ after q := by
  induction p with
  | nil => simp [after]
  | cons f p ih => simp [after, ih, List.append_assoc]

theorem attach_eq_node (f : Frame K V) (c : TNode K V) :
    ∃ h d l r, f.attach c = .node h d l r := by
  cases f with
  | mk b h d s => cases b <;> simp [Frame.attach]

/-- On an internal node `updateHeights` returns, and it changes height fields only. -/
theorem updateHeights_ok (h : Int) (d : Data K V) (l r : TNode K V) (p : Path K V) :
    ∃ t, updateHeights (.node h d l r) p = .ok t ∧
      inorder t = before p ++ inorder (.node h d l r) ++ after p := by
  induction p generalizing h d l r with
  | nil => exact ⟨_, rfl, by simp [before, after, inorder]⟩
  | cons f p ih =>
    obtain ⟨h1, d1, l1, r1, e1⟩ := attach_eq_node f
      (.node ((if subTreeHeight l > subTreeHeight r then subTreeHeight l
        else subTreeHeight r) + 1) d l r)
    obtain ⟨t, ht, hin⟩ := ih h1 d1 l1 r1
    refine ⟨t, ?_, ?_⟩
    · simp only [updateHeights, e1]; exact ht
    · rw [hin, ← e1, inorder_attach]
      simp [before, after, inorder, List.append_assoc]

theorem updateHeightsAbove_ok (c : TNode K V) (p : Path K V) :
    ∃ t, updateHeightsAbove c p = .ok t ∧ inorder t = before p ++ inorder c ++ after p := by
  cases p with
  | nil => exact ⟨c, rfl, by simp [before, after]⟩
  | cons f p =>
    obtain ⟨h1, d1, l1, r1, e1⟩ := attach_eq_node f c
    obtain ⟨t, ht, hin⟩ := updateHeights_ok h1 d1 l1 r1 p
    refine ⟨t, ?_, ?_⟩
    · simp only [updateHeightsAbove, e1]; exact ht
    · rw [hin, ← e1, inorder_attach]
      simp [before, after, List.append_assoc]

theorem keys_node (h : Int) (d : Data K V) (l r : TNode K V) :
    keys (.node h d l r) = keys l ++ d.key :: keys r := by
  simp [keys, inorder]

/-- BST order is the same as: the in-order key sequence is strictly increasing. -/
theorem BST_iff_sorted [LinearOrder K] (t : TNode K V) :
    BST t ↔ (keys t).Pairwise (· < ·) := by
  induction t with
  | leaf h => simp [BST, keys, inorder]
  | node h d l r ihl ihr =>
    rw [keys_node, BST, ihl, ihr, List.pairwise_append, List.pairwise_cons]
    constructor
    · rintro ⟨h1, h2, h3, h4⟩
      refine ⟨h3, ⟨h2, h4⟩, ?_⟩
      intro a ha b hb
      rcases List.mem_cons.1 hb with rfl | hb
      · exact h1 a ha
      · exact lt_trans (h1 a ha) (h2 b hb)
    · rintro ⟨h3, ⟨h2, h4⟩, h5⟩
      exact ⟨fun k hk => h5 k hk _ (List.mem_cons_self _ _), h2, h3, h4⟩

theorem compareData_eq_zero [LinearOrder K] (a b : K) : compareData a b = 0 ↔ a = b := by
  unfold compareData
  split_ifs with h1 h2
  · simp [ne_of_lt h1]
  · simp [h2]
  · simp [h2]

theorem compareData_neg [LinearOrder K] (a b : K) : compareData a b < 0 ↔ a < b := by
  unfold compareData
  split_ifs with h1 h2
  · simp [h1]
  · simp [h1]
  · simp [h1]

/-- What `searchTreeRec` returns on a subtree in BST order: a location of the same tree,
reached by comparing with the key at every node passed, that is an empty leaf or an
internal node holding the key. -/
theorem searchTreeRec_spec [LinearOrder K] (key : K) (t : TNode K V) (p : Path K V)
    (hb : BST t) (hlo : ∀ x ∈ before p, x.key < key) (hhi : ∀ x ∈ after p, key < x.key) :
    plug (searchTreeRec t key p).1 (searchTreeRec t key p).2 = plug t p ∧
    BST (searchTreeRec t key p).1 ∧
    (∀ x ∈ before (searchTreeRec t key p).2, x.key < key) ∧
    (∀ x ∈ after (searchTreeRec t key p).2, key < x.key) ∧
    ((∃ h, (searchTreeRec t key p).1 = .leaf h) ∨
      ∃ h d l r, (searchTreeRec t key p).1 = .node h d l r ∧ d.key = key) := by
  induction t generalizing p with
  | leaf h => exact ⟨rfl, hb, hlo, hhi, Or.inl ⟨h, rfl⟩⟩
  | node h d l r ihl ihr =>
    obtain ⟨h1, h2, h3, h4⟩ := hb
    by_cases e0 : compareData key d.key = 0
    · rw [show searchTreeRec (.node h d l r) key p = (.node h d l r, p) by
        simp [searchTreeRec, e0]]
      exact ⟨rfl, ⟨h1, h2, h3, h4⟩, hlo, hhi,
        Or.inr ⟨h, d, l, r, rfl, ((compareData_eq_zero _ _).1 e0).symm⟩⟩
    · by_cases e1 : compareData key d.key < 0
      · rw [show searchTreeRec (.node h d l r) key p =
          searchTreeRec l key (⟨true, h, d, r⟩ :: p) by simp [searchTreeRec, e0, e1]]
        have hlt := (compareData_neg _ _).1 e1
        have := ihl (⟨true, h, d, r⟩ :: p) h3 (by simpa [before] using hlo) (by
          intro x hx
          simp only [after, if_true, List.cons_append, List.mem_cons, List.mem_append] at hx
          rcases hx with rfl | hx | hx
          · exact hlt
          · exact lt_trans hlt (h2 _ (List.mem_map_of_mem _ hx))
          · exact hhi x hx)
        simpa [plug, Frame.attach] using this
      · rw [show searchTreeRec (.node h d l r) key p =
          searchTreeRec r key (⟨false, h, d, l⟩ :: p) by simp [searchTreeRec, e0, e1]]
        have hne : key ≠ d.key := fun e => e0 ((compareData_eq_zero _ _).2 e)
        have hnlt : ¬ key < d.key := fun e => e1 ((compareData_neg _ _).2 e)
        have hgt : d.key < key := lt_of_le_of_ne (not_lt.1 hnlt) (Ne.symm hne)
        have := ihr (⟨false, h, d, l⟩ :: p) h4 (by
          intro x hx
          simp only [before, List.mem_append, Bool.false_eq_true, if_false,
            List.mem_singleton] at hx
          rcases hx with hx | hx | rfl
          · exact hlo x hx
          · exact lt_trans (h1 _ (List.mem_map_of_mem _ hx)) hgt
          · exact hgt) (by simpa [after] using hhi)
        simpa [plug, Frame.attach] using this

/-- The facts about `searchTree` on a tree in BST order, for the location `(f, p)` found. -/
theorem searchTree_spec [LinearOrder K] (key : K) (t f : TNode K V) (p : Path K V)
    (hb : BST t) (hs : searchTree t key = (f, p)) :
    plug f p = t ∧ BST f ∧ (∀ x ∈ before p, x.key < key) ∧ (∀ x ∈ after p, key < x.key) ∧
    ((∃ h, f = .leaf h) ∨ ∃ h d l r, f = .node h d l r ∧ d.key = key) := by
  have := searchTreeRec_spec key t [] hb (by simp [before]) (by simp [after])
  unfold searchTree at hs
  rw [hs] at this
  simpa [plug] using this

theorem searchTree_leaf_not_mem [LinearOrder K] (key : K) (t : TNode K V) (h : Int)
    (p : Path K V) (hb : BST t) (hs : searchTree t key = (.leaf h, p)) : key ∉ keys t := by
  obtain ⟨hp, -, hlo, hhi, -⟩ := searchTree_spec key t _ p hb hs
  intro hk
  rw [← hp, keys, inorder_plug] at hk
  simp only [inorder, List.append_nil, List.map_append, List.mem_append, List.mem_map] at hk
  rcases hk with ⟨x, hx, rfl⟩ | ⟨x, hx, rfl⟩
  · exact lt_irrefl _ (hlo x hx)
  · exact lt_irrefl _ (hhi x hx)

theorem searchTree_node_mem [LinearOrder K] (key : K) (t : TNode K V) (h : Int)
    (d : Data K V) (l r : TNode K V) (p : Path K V) (hb : BST t)
    (hs : searchTree t key = (.node h d l r, p)) : d.key = key ∧ key ∈ keys t := by
  obtain ⟨hp, -, -, -, hf⟩ := searchTree_spec key t _ p hb hs
  rcases hf with ⟨h', hf⟩ | ⟨h', d', l', r', hf, hk⟩
  · cases hf
  · cases hf
    refine ⟨hk, ?_⟩
    rw [← hp, keys, inorder_plug]
    simp [inorder, hk]

theorem removeNextInorder_ok (h : Int) (d : Data K V) (l r : TNode K V) (q : Path K V) :
    ∃ nd c inner, removeNextInorder (.node h d l r) q = .ok (nd, c, inner ++ q) ∧
      before inner = [] ∧
      nd :: (inorder c ++ after inner) = inorder (.node h d l r) := by
  induction l generalizing h d r q with
  | leaf hl => exact ⟨d, r, [], rfl, rfl, by simp [inorder, after]⟩
  | node hl dl ll rl ihl _ =>
    obtain ⟨nd, c, inner, h1, h2, h3⟩ := ihl hl dl rl (⟨true, h, d, r⟩ :: q)
    refine ⟨nd, c, inner ++ [⟨true, h, d, r⟩], ?_, ?_, ?_⟩
    · rw [removeNextInorder]
      simp only [TNode.isLeaf, Bool.false_eq_true, if_false]
      rw [h1]; simp
    · simp [before_append, before, h2]
    · rw [after_append]
      simp only [after, if_true, List.append_nil]
      rw [← List.append_assoc, ← List.cons_append, h3]
      simp [inorder]

theorem isLeaf_eq_true_iff (t : TNode K V) : t.isLeaf = true ↔ ∃ h, t = .leaf h := by
  cases t <;> simp [TNode.isLeaf]

/-- What `removeTree` does with a key that is stored in a tree in BST order. -/
theorem removeTree_mem [LinearOrder K] (t : TNode K V) (key : K) (hb : BST t)
    (hk : key ∈ keys t) :
    ∃ d t1 pre post, removeTree t key = .ok (some d, t1) ∧ d.key = key ∧
      inorder t = pre ++ d :: post ∧ inorder t1 = pre ++ post := by
  rcases hs : searchTree t key with ⟨f, p⟩
  cases f with
  | leaf h => exact absurd hk (searchTree_leaf_not_mem key t h p hb hs)
  | node h d l r =>
    obtain ⟨hp, -, -, -, -⟩ := searchTree_spec key t _ p hb hs
    obtain ⟨hd, -⟩ := searchTree_node_mem key t h d l r p hb hs
    have hin : inorder t = before p ++ (inorder l ++ d :: inorder r) ++ after p := by
      rw [← hp, inorder_plug, inorder]
    by_cases hl : l.isLeaf = true
    · obtain ⟨t1, ht1, hi1⟩ := updateHeightsAbove_ok r p
      obtain ⟨hh, rfl⟩ := (isLeaf_eq_true_iff l).1 hl
      refine ⟨d, t1, before p, inorder r ++ after p, ?_, hd, ?_, ?_⟩
      · simp [removeTree, hs, TNode.isLeaf, ht1, rebalanceTree]
      · rw [hin]; simp [inorder]
      · rw [hi1]; simp
    · by_cases hr : r.isLeaf = true
      · obtain ⟨t1, ht1, hi1⟩ := updateHeightsAbove_ok l p
        obtain ⟨hh, rfl⟩ := (isLeaf_eq_true_iff r).1 hr
        refine ⟨d, t1, before p ++ inorder l, after p, ?_, hd, ?_, ?_⟩
        · simp [removeTree, hs, hl, hr, ht1, rebalanceTree]
        · rw [hin]; simp [inorder]
        · rw [hi1]
      · cases r with
        | leaf hh => simp [TNode.isLeaf] at hr
        | node hr0 dr lr rr =>
          obtain ⟨nd, c, inner, h1, h2, h3⟩ := removeNextInorder_ok hr0 dr lr rr []
          obtain ⟨t1, ht1, hi1⟩ := updateHeightsAbove_ok c (inner ++ ⟨false, h, nd, l⟩ :: p)
          refine ⟨d, t1, before p ++ inorder l, inorder (.node hr0 dr lr rr) ++ after p,
            ?_, hd, ?_, ?_⟩
          · simp only [List.append_nil] at h1
            simp [removeTree, hs, hl, hr, h1, ht1, rebalanceTree]
          · rw [hin]; simp
          · rw [hi1, before_append, after_append, h2, ← h3]
            simp [before, after]

/-- What `removeTree` does with a key that is not stored in a tree in BST order. -/
theorem removeTree_not_mem [LinearOrder K] (t : TNode K V) (key : K) (hb : BST t)
    (hk : key ∉ keys t) : removeTree t key = .ok (none, t) := by
  rcases hs : searchTree t key with ⟨f, p⟩
  cases f with
  | leaf h => simp [removeTree, hs]
  | node h d l r => exact absurd (searchTree_node_mem key t h d l r p hb hs).2 hk

/-- What `insertTreeBalanced` does with a key that is not stored in a tree in BST order. -/
theorem insertTreeBalanced_not_mem [LinearOrder K] (t : TNode K V) (d : Data K V)
    (hb : BST t) (hk : d.key ∉ keys t) :
    ∃ t1 pre post, insertTreeBalanced t d = .ok t1 ∧ inorder t = pre ++ post ∧
      inorder t1 = pre ++ d :: post ∧
      (∀ x ∈ pre, x.key < d.key) ∧ (∀ x ∈ post, d.key < x.key) := by
  rcases hs : searchTree t d.key with ⟨f, p⟩
  cases f with
  | node h d' l r => exact absurd (searchTree_node_mem d.key t h d' l r p hb hs).2 hk
  | leaf h =>
    obtain ⟨hp, -, hlo, hhi, -⟩ := searchTree_spec d.key t _ p hb hs
    obtain ⟨t1, ht1, hi1⟩ := updateHeights_ok h d (.leaf 0) (.leaf 0) p
    refine ⟨t1, before p, after p, ?_, ?_, ?_, hlo, hhi⟩
    · simp [insertTreeBalanced, hs, insertAtTNode, attachLeafNodes, ht1, rebalanceTree]
    · rw [← hp, inorder_plug]; simp [inorder]
    · rw [hi1]; simp [inorder]

theorem pairwise_keys_remove [LinearOrder K] (pre post : List (Data K V)) (d : Data K V)
    (h : ((pre ++ d :: post).map Data.key).Pairwise (· < ·)) :
    ((pre ++ post).map Data.key).Pairwise (· < ·) ∧
    ∀ k, k ∈ (pre ++ post).map Data.key ↔ (k ∈ (pre ++ d :: post).map Data.key ∧ k ≠ d.key) := by
  simp only [List.map_append, List.map_cons, List.pairwise_append, List.pairwise_cons,
    List.mem_cons, List.mem_append] at h ⊢
  obtain ⟨h1, ⟨h2, h3⟩, h4⟩ := h
  refine ⟨⟨h1, h3, fun a ha b hb => h4 a ha b (Or.inr hb)⟩, ?_⟩
  intro k
  constructor
  · rintro (hk | hk)
    · exact ⟨Or.inl hk, ne_of_lt (h4 k hk _ (Or.inl rfl))⟩
    · exact ⟨Or.inr (Or.inr hk), ne_of_gt (h2 k hk)⟩
  · rintro ⟨hk | hk | hk, hne⟩
    · exact Or.inl hk
    · exact absurd hk hne
    · exact Or.inr hk

theorem pairwise_keys_insert [LinearOrder K] (pre post : List (Data K V)) (d : Data K V)
    (h : ((pre ++ post).map Data.key).Pairwise (· < ·))
    (hlo : ∀ x ∈ pre, x.key < d.key) (hhi : ∀ x ∈ post, d.key < x.key) :
    ((pre ++ d :: post).map Data.key).Pairwise (· < ·) := by
  simp only [List.map_append, List.map_cons, List.pairwise_append, List.pairwise_cons,
    List.mem_cons, List.mem_map] at h ⊢
  obtain ⟨h1, h3, h4⟩ := h
  refine ⟨h1, ⟨?_, h3⟩, ?_⟩
  · rintro a ⟨x, hx, rfl⟩; exact hhi x hx
  · rintro a ⟨x, hx, rfl⟩ b (rfl | ⟨y, hy, rfl⟩)
    · exact hlo x hx
    · exact h4 _ ⟨x, hx, rfl⟩ _ ⟨y, hy, rfl⟩

/-- `removeTree` on a tree in BST order returns, keeps the order and removes the key. -/
theorem removeTree_BST [LinearOrder K] (t : TNode K V) (key : K) (hb : BST t) :
    ∃ r t1, removeTree t key = .ok (r, t1) ∧ BST t1 ∧
      ∀ k, k ∈ keys t1 ↔ (k ∈ keys t ∧ k ≠ key) := by
  by_cases hk : key ∈ keys t
  · obtain ⟨d, t1, pre, post, h1, h2, h3, h4⟩ := removeTree_mem t key hb hk
    have hs := (BST_iff_sorted t).1 hb
    rw [keys, h3] at hs
    obtain ⟨p1, p2⟩ := pairwise_keys_remove pre post d hs
    refine ⟨some d, t1, h1, ?_, ?_⟩
    · rw [BST_iff_sorted, keys, h4]; exact p1
    · intro k; rw [keys, keys, h4, h3, ← h2]; exact p2 k
  · refine ⟨none, t, removeTree_not_mem t key hb hk, hb, ?_⟩
    intro k
    exact ⟨fun h => ⟨h, fun e => hk (e ▸ h)⟩, fun h => h.1⟩

/-- `insertTreeBalanced` of an absent key on a tree in BST order returns, keeps the order
and adds the key. -/
theorem insertTreeBalanced_BST [LinearOrder K] (t : TNode K V) (d : Data K V) (hb : BST t)
    (hk : d.key ∉ keys t) :
    ∃ t1, insertTreeBalanced t d = .ok t1 ∧ BST t1 ∧ (inorder t1).Perm (d :: inorder t) ∧
      ∀ k, k ∈ keys t1 ↔ (k = d.key ∨ k ∈ keys t) := by
  obtain ⟨t1, pre, post, h1, h2, h3, h4, h5⟩ := insertTreeBalanced_not_mem t d hb hk
  have hs := (BST_iff_sorted t).1 hb
  rw [keys, h2] at hs
  refine ⟨t1, h1, ?_, ?_, ?_⟩
  · rw [BST_iff_sorted, keys, h3]; exact pairwise_keys_insert pre post d hs h4 h5
  · rw [h3, h2]; exact List.perm_middle
  · intro k
    rw [keys, keys, h3, h2]
    simp only [List.map_append, List.map_cons, List.mem_append, List.mem_cons]
    tauto

theorem insertAll_ok [LinearOrder K] (ds : List (Data K V)) (t : TNode K V) (hb : BST t)
    (hnd : (ds.map Data.key).Nodup) (hnew : ∀ d ∈ ds, d.key ∉ keys t) :
    ∃ t1, insertAll t ds = .ok t1 ∧ BST t1 ∧ (inorder t1).Perm (ds ++ inorder t) := by
  induction ds generalizing t with
  | nil => exact ⟨t, rfl, hb, List.Perm.refl _⟩
  | cons d ds ih =>
    rw [List.map_cons, List.nodup_cons] at hnd
    obtain ⟨t1, h1, h2, h3, h4⟩ :=
      insertTreeBalanced_BST t d hb (hnew d (List.mem_cons_self _ _))
    have hnew1 : ∀ x ∈ ds, x.key ∉ keys t1 := by
      intro x hx hk
      rcases (h4 _).1 hk with e | hk
      · exact hnd.1 (e ▸ List.mem_map_of_mem _ hx)
      · exact hnew x (List.mem_cons_of_mem _ hx) hk
    obtain ⟨t2, g1, g2, g3⟩ := ih t1 h2 hnd.2 hnew1
    refine ⟨t2, ?_, g2, ?_⟩
    · simp [insertAll, h1, g1]
    · refine g3.trans ?_
      refine ((List.Perm.append_left ds h3).trans ?_)
      exact List.perm_middle

theorem inorder_eq_nil (t : TNode K V) (h : inorder t = []) : t.isLeaf = true := by
  cases t with
  | leaf _ => rfl
  | node _ _ _ _ => simp [inorder] at h

theorem removeAll_ok [LinearOrder K] (ks : List K) (t : TNode K V) (hb : BST t)
    (hp : ks.Perm (keys t)) :
    ∃ rs t1, removeAll t ks = .ok (rs, t1) ∧
      List.Forall₂ (fun k r => ∃ d ∈ inorder t, d.key = k ∧ r = some d) ks rs ∧
      inorder t1 = [] := by
  induction ks generalizing t with
  | nil =>
    refine ⟨[], t, rfl, List.Forall₂.nil, ?_⟩
    have := hp.symm.eq_nil
    simpa [keys] using this
  | cons k ks ih =>
    have hk : k ∈ keys t := hp.subset (List.mem_cons_self _ _)
    obtain ⟨d, t1, pre, post, h1, h2, h3, h4⟩ := removeTree_mem t k hb hk
    have hs := (BST_iff_sorted t).1 hb
    rw [keys, h3] at hs
    obtain ⟨p1, -⟩ := pairwise_keys_remove pre post d hs
    have hb1 : BST t1 := by rw [BST_iff_sorted, keys, h4]; exact p1
    have hp1 : ks.Perm (keys t1) := by
      have e : keys t = pre.map Data.key ++ k :: post.map Data.key := by
        rw [keys, h3, ← h2]; simp
      rw [e] at hp
      have := hp.trans List.perm_middle
      rw [keys, h4, List.map_append]
      exact this.cons_inv
    obtain ⟨rs, t2, g1, g2, g3⟩ := ih t1 hb1 hp1
    refine ⟨some d :: rs, t2, ?_, List.Forall₂.cons ⟨d, ?_, h2, rfl⟩ ?_, g3⟩
    · simp [removeAll, h1, g1]
    · rw [h3]; simp
    · refine g2.imp ?_
      rintro a b ⟨x, hx, hxa, hxb⟩
      refine ⟨x, ?_, hxa, hxb⟩
      rw [h4] at hx; rw [h3]
      rcases List.mem_append.1 hx with hx | hx
      · exact List.mem_append_left _ hx
      · exact List.mem_append_right _ (List.mem_cons_of_mem _ hx)

theorem runOps_ok [LinearOrder K] (ops : List (Op K V)) (t : TNode K V) (present : List K)
    (hb : BST t) (hpres : ∀ k, k ∈ keys t ↔ k ∈ present) (hf : FreshInserts present ops) :
    ∃ ts, runOps t ops = .ok ts ∧ ts.length = ops.length ∧
      ∀ t1 ∈ ts, BST t1 ∧ (keys t1).Pairwise (· < ·) := by
  induction ops generalizing t present with
  | nil => exact ⟨[], rfl, rfl, by simp⟩
  | cons op ops ih =>
    cases op with
    | insert d =>
      obtain ⟨hnew, hf1⟩ := hf
      obtain ⟨t1, h1, h2, -, h4⟩ :=
        insertTreeBalanced_BST t d hb (fun h => hnew ((hpres _).1 h))
      obtain ⟨ts, g1, g2, g3⟩ := ih t1 (d.key :: present) h2 (by
        intro k; rw [h4, List.mem_cons, hpres]) hf1
      refine ⟨t1 :: ts, ?_, by simp [g2], ?_⟩
      · simp [runOps, applyOp, h1, g1]
      · intro x hx
        rcases List.mem_cons.1 hx with rfl | hx
        · exact ⟨h2, (BST_iff_sorted _).1 h2⟩
        · exact g3 x hx
    | remove key =>
      obtain ⟨r, t1, h1, h2, h4⟩ := removeTree_BST t key hb
      obtain ⟨ts, g1, g2, g3⟩ := ih t1 (present.filter (· ≠ key)) h2 (by
        intro k; rw [h4, hpres]; simp [List.mem_filter]) hf
      refine ⟨t1 :: ts, ?_, by simp [g2], ?_⟩
      · simp [runOps, applyOp, h1, g1]
      · intro x hx
        rcases List.mem_cons.1 hx with rfl | hx
        · exact ⟨h2, (BST_iff_sorted _).1 h2⟩
        · exact g3 x hx

/-! ## Huffman tree: lemmas -/

/-- In a Huffman tree the string of a node lists the symbols below it; it is not empty
and does not contain NUL. -/
theorem HuffTree.str_eq (t : HuffNode) (ht : HuffTree t) :
    t.str? = some (symbols t) ∧ symbols t ≠ [] ∧ Char.ofNat 0 ∉ symbols t := by
  induction t with
  | leaf => simp [HuffTree] at ht
  | node str w l r ihl ihr =>
    cases l with
    | leaf =>
      cases r with
      | leaf =>
        obtain ⟨hlen, hch⟩ := ht
        refine ⟨rfl, ?_, hch⟩
        intro e
        simp only [symbols] at e
        rw [e] at hlen
        simp at hlen
      | node rs rw rl rr => simp [HuffTree] at ht
    | node ls lw ll lr =>
      cases r with
      | leaf => simp [HuffTree] at ht
      | node rs rw rl rr =>
        obtain ⟨rfl, hl, hr⟩ := ht
        obtain ⟨l1, l2, l3⟩ := ihl hl
        obtain ⟨r1, r2, r3⟩ := ihr hr
        simp only [HuffNode.str?, Option.some.injEq] at l1 r1
        refine ⟨?_, ?_, ?_⟩
        · simp [HuffNode.str?, symbols, ← l1, ← r1]
        · simp [symbols, l2]
        · simp only [symbols, List.mem_append, not_or]
          exact ⟨l3, r3⟩

theorem tempstr_length (c : Char) : (tempstr c).length ≤ 1 := by
  unfold tempstr; split_ifs <;> simp

theorem length_pos_of_ne_nil {α : Type} (l : List α) (h : l ≠ []) : 1 ≤ l.length := by
  cases l with
  | nil => exact absurd rfl h
  | cons a l => simp

/-- The walk of `printHuffmanEncoding` in a Huffman tree, for a symbol of the tree and any
content `enc` of the buffer: there is a bit string that leads to the symbol node of `c`,
and the walk appends exactly that bit string whenever the buffer can hold it. -/
theorem printHuffmanEncoding_walk (t : HuffNode) (c : Char) (ht : HuffTree t)
    (hc : c ∈ symbols t) :
    ∃ bits w, follow t bits = some (symbolNode c w) ∧
      (∀ b ∈ bits, b = Char.ofNat 48 ∨ b = Char.ofNat 49) ∧
      ∀ enc : List Char, enc.length + bits.length ≤ 49 →
        printHuffmanEncoding t c enc = .ok (enc ++ bits) := by
  induction t with
  | leaf => simp [HuffTree] at ht
  | node str w l r ihl ihr =>
    cases l with
    | leaf =>
      cases r with
      | leaf =>
        obtain ⟨hlen, hch⟩ := ht
        obtain ⟨ch, rfl⟩ := List.length_eq_one.1 hlen
        simp only [symbols, List.mem_singleton] at hc
        subst hc
        have hc0 : c ≠ Char.ofNat 0 := fun e => hch (by simp [e])
        refine ⟨[], w, rfl, by simp, ?_⟩
        intro enc _
        simp [printHuffmanEncoding, tempstr, hc0]
      | node rs rw rl rr => simp [HuffTree] at ht
    | node ls lw ll lr =>
      cases r with
      | leaf => simp [HuffTree] at ht
      | node rs rw rl rr =>
        obtain ⟨rfl, hl, hr⟩ := ht
        obtain ⟨l1, l2, l3⟩ := HuffTree.str_eq _ hl
        obtain ⟨r1, r2, r3⟩ := HuffTree.str_eq _ hr
        simp only [HuffNode.str?, Option.some.injEq] at l1 r1
        have hne : tempstr c ≠ ls ++ rs := by
          intro e
          have h1 := tempstr_length c
          have h2 := length_pos_of_ne_nil ls (fun e0 => l2 (l1.symm.trans e0))
          have h3 := length_pos_of_ne_nil rs (fun e0 => r2 (r1.symm.trans e0))
          rw [e, List.length_append] at h1
          omega
        have hc0 : c ≠ Char.ofNat 0 := by
          rintro rfl
          simp only [symbols, List.mem_append] at hc
          rcases hc with hc | hc
          · exact l3 hc
          · exact r3 hc
        by_cases hcl : c ∈ ls
        · obtain ⟨bits, w1, f1, f2, f3⟩ := ihl hl (l1 ▸ hcl)
          refine ⟨Char.ofNat 48 :: bits, w1, ?_, ?_, ?_⟩
          · simp [follow, f1]
          · intro b hb
            rcases List.mem_cons.1 hb with rfl | hb
            · exact Or.inl rfl
            · exact f2 b hb
          · intro enc henc
            simp only [List.length_cons] at henc
            have := f3 (enc ++ [Char.ofNat 48]) (by simp; omega)
            have hcat : strcatEncoding enc (Char.ofNat 48) = .ok (enc ++ [Char.ofNat 48]) := by
              unfold strcatEncoding; rw [if_pos (by omega)]
            have hchr : strchr ls c = true := by simp [strchr, hcl]
            rw [printHuffmanEncoding]
            simp only [hne, if_false, HuffNode.str?, hchr, if_true, hcat]
            simpa using this
        · have hcr : c ∈ symbols (.node rs rw rl rr) := by
            simp only [symbols, List.mem_append] at hc
            rcases hc with hc | hc
            · exact absurd (l1 ▸ hc) hcl
            · exact hc
          obtain ⟨bits, w1, f1, f2, f3⟩ := ihr hr hcr
          refine ⟨Char.ofNat 49 :: bits, w1, ?_, ?_, ?_⟩
          · have : (Char.ofNat 49) ≠ Char.ofNat 48 := by decide
            simp [follow, f1, this]
          · intro b hb
            rcases List.mem_cons.1 hb with rfl | hb
            · exact Or.inr rfl
            · exact f2 b hb
          · intro enc henc
            simp only [List.length_cons] at henc
            have := f3 (enc ++ [Char.ofNat 49]) (by simp; omega)
            have hcat : strcatEncoding enc (Char.ofNat 49) = .ok (enc ++ [Char.ofNat 49]) := by
              unfold strcatEncoding; rw [if_pos (by omega)]
            have hchr : strchr ls c = false := by simp [strchr, hcl, hc0]
            rw [printHuffmanEncoding]
            simp only [hne, if_false, HuffNode.str?, hchr, Bool.false_eq_true, hcat]
            simpa using this

theorem follow_leaf_ne (bs : List Char) (c : Char) (w : Int) :
    follow .leaf bs ≠ some (symbolNode c w) := by
  cases bs <;> simp [follow, symbolNode]

/-- A bit string that leads to the symbol node of `c` shows that `c` is a symbol. -/
theorem follow_symbol_mem (t : HuffNode) (bs : List Char) (c : Char) (w : Int)
    (ht : HuffTree t) (h : follow t bs = some (symbolNode c w)) : c ∈ symbols t := by
  induction t generalizing bs with
  | leaf => simp [HuffTree] at ht
  | node str w0 l r ihl ihr =>
    cases bs with
    | nil =>
      simp only [follow, symbolNode, Option.some.injEq, HuffNode.node.injEq] at h
      obtain ⟨rfl, -, rfl, rfl⟩ := h
      simp [symbols]
    | cons b bs =>
      cases l with
      | leaf =>
        cases r with
        | leaf =>
          simp only [follow] at h
          split_ifs at h
          · exact absurd h (follow_leaf_ne bs c w)
          · exact absurd h (follow_leaf_ne bs c w)
        | node rs rw rl rr => simp [HuffTree] at ht
      | node ls lw ll lr =>
        cases r with
        | leaf => simp [HuffTree] at ht
        | node rs rw rl rr =>
          obtain ⟨-, hl, hr⟩ := ht
          simp only [follow] at h
          simp only [symbols, List.mem_append]
          split_ifs at h
          · exact Or.inl (ihl bs hl h)
          · exact Or.inr (ihr bs hr h)

/-- With pairwise distinct symbols only one bit string leads to the symbol node of `c`. -/
theorem follow_unique (t : HuffNode) (b1 b2 : List Char) (c : Char) (w1 w2 : Int)
    (ht : HuffTree t) (hnd : (symbols t).Nodup)
    (h1 : follow t b1 = some (symbolNode c w1)) (h2 : follow t b2 = some (symbolNode c w2)) :
    b1 = b2 := by
  induction t generalizing b1 b2 with
  | leaf => simp [HuffTree] at ht
  | node str w0 l r ihl ihr =>
    cases l with
    | leaf =>
      cases r with
      | leaf =>
        have key : ∀ b : List Char, follow (.node str w0 .leaf .leaf) b =
            some (symbolNode c w1) ∨ follow (.node str w0 .leaf .leaf) b =
            some (symbolNode c w2) → b = [] := by
          intro b hb
          cases b with
          | nil => rfl
          | cons x xs =>
            simp only [follow] at hb
            rcases hb with hb | hb <;> split_ifs at hb <;>
              exact absurd hb (follow_leaf_ne xs c _)
        rw [key b1 (Or.inl h1), key b2 (Or.inr h2)]
      | node rs rw rl rr => simp [HuffTree] at ht
    | node ls lw ll lr =>
      cases r with
      | leaf => simp [HuffTree] at ht
      | node rs rw rl rr =>
        obtain ⟨-, hl, hr⟩ := ht
        simp only [symbols] at hnd
        obtain ⟨nl, nr, hdis⟩ := List.nodup_append.1 hnd
        cases b1 with
        | nil => simp [follow, symbolNode] at h1
        | cons x1 r1 =>
          cases b2 with
          | nil => simp [follow, symbolNode] at h2
          | cons x2 r2 =>
            simp only [follow] at h1 h2
            split_ifs at h1 with a1 a2 <;> split_ifs at h2 with c1 c2
            · rw [a1, c1, ihl r1 r2 hl nl h1 h2]
            · exact absurd (follow_symbol_mem _ _ _ _ hr h2)
                (fun hm => hdis (follow_symbol_mem _ _ _ _ hl h1) hm)
            · exact absurd (follow_symbol_mem _ _ _ _ hr h1)
                (fun hm => hdis (follow_symbol_mem _ _ _ _ hl h2) hm)
            · rw [a2, c2, ihr r1 r2 hr nr h1 h2]

/-! ## Segment tree: lemmas -/

/-- Every counter of the tree is zero. -/
theorem constructSegmentTree_cnt {R : Type} [CDouble R] (points : List R) (fuel : Nat)
    (low high : Int) (t : SegNode R) (h : constructSegmentTree points fuel low high = .ok t)
    (q : R) : lineStabQuery t q = 0 := by
  induction fuel generalizing low high t with
  | zero => simp [constructSegmentTree] at h
  | succ n ih =>
    rw [constructSegmentTree] at h
    split at h
    · cases h
    · cases h
    · split_ifs at h with e
      · cases h
        simp [lineStabQuery]
      · split at h
        · cases h
        · cases h
        · rename_i l r hl hr
          cases h
          simp [lineStabQuery, ih _ _ l hl, ih _ _ r hr]

/-- Inserting an interval a second time adds to every query result what the first
insertion added. -/
theorem lineStabQuery_insert_twice {R : Type} [CDouble R] (t : SegNode R) (s e q : R) :
    lineStabQuery (insertSegment (insertSegment t s e) s e) q + lineStabQuery t q =
      2 * lineStabQuery (insertSegment t s e) q := by
  induction t with
  | leaf => simp [insertSegment, lineStabQuery]
  | node lo hi cnt l r ihl ihr =>
    by_cases c1 : (CDouble.eq s lo || CDouble.eq e hi) = true
    · simp only [insertSegment, c1, if_true]; ring
    · by_cases c2 : CDouble.lt (CDouble.sub hi lo) e = true
      · simp only [insertSegment, c1, c2, if_true, if_false, lineStabQuery]
        split_ifs <;> ring
      · simp only [insertSegment, c1, c2, if_false, lineStabQuery]
        split_ifs
        · ring
        · linear_combination ihl + ihr

/-! ## The claims -/

/-- Claim C1, evaluated on the code: after `insertTreeBalanced` of the keys "1", "2", "3"
into the tree of `createTree` the root has left height 0 and right height 2, balance -2,
so the tree does not satisfy `|height(left) - height(right)| <= 1` at every node. -/
theorem insertTreeBalanced_not_balanced :
    ∃ t, insertAll createTree ascendingData = .ok t ∧ getBalance t = -2 ∧ ¬ Balanced t := by
  refine ⟨.node 3 ⟨['1'], 1⟩ (.leaf 0) (.node 2 ⟨['2'], 2⟩ (.leaf 0)
    (.node 1 ⟨['3'], 3⟩ (.leaf 0) (.leaf 0))), rfl, rfl, ?_⟩
  simp [Balanced, getBalance, subTreeHeight]

/-- The round trip in the first embedding: for records with pairwise distinct keys
inserted with `insertTreeBalanced` into the tree of `createTree`, and the keys removed
with `removeTree` in any order `ks`, every call returns, each `removeTree` returns the
record inserted under its key, and the tree after the last removal is a single leaf. -/
theorem round_trip_erased [LinearOrder K] (ds : List (Data K V)) (ks : List K)
    (hnd : (ds.map Data.key).Nodup) (hperm : ks.Perm (ds.map Data.key)) :
    ∃ t rs t1, insertAll createTree ds = .ok t ∧ removeAll t ks = .ok (rs, t1) ∧
      List.Forall₂ (fun k r => ∃ d ∈ ds, d.key = k ∧ r = some d) ks rs ∧
      t1.isLeaf = true := by
  obtain ⟨t, h1, h2, h3⟩ := insertAll_ok ds createTree trivial hnd
    (by simp [createTree, keys, inorder])
  have h3 : (inorder t).Perm ds := by simpa [createTree, inorder] using h3
  obtain ⟨rs, t1, g1, g2, g3⟩ := removeAll_ok ks t h2 (hperm.trans (h3.map Data.key).symm)
  refine ⟨t, rs, t1, h1, g1, g2.imp ?_, inorder_eq_nil t1 g3⟩
  rintro a b ⟨d, hd, hda, hdb⟩
  exact ⟨d, h3.subset hd, hda, hdb⟩

/-- Claim C3: on a tree in BST order `removeTree` of a stored key returns the record
stored under that key, and the in-order sequence of records afterwards is the sequence
before with exactly that record taken out (also when the node has two internal children
and is refilled from its in-order successor). -/
theorem removeTree_present [LinearOrder K] (t : TNode K V) (key : K) (hb : BST t)
    (hk : key ∈ keys t) :
    ∃ d t1 pre post, removeTree t key = .ok (some d, t1) ∧ d.key = key ∧
      inorder t = pre ++ d :: post ∧ inorder t1 = pre ++ post :=
  removeTree_mem t key hb hk

/-- Claim C3 at the root of the 005/010/003 tree, a node with two internal children. -/
theorem removeTree_present_witness :
    ∃ d t1 pre post, removeTree scenarioTree ['0', '0', '5'] = .ok (some d, t1) ∧
      d.key = ['0', '0', '5'] ∧
      inorder scenarioTree = pre ++ d :: post ∧ inorder t1 = pre ++ post :=
  removeTree_present scenarioTree ['0', '0', '5'] (by decide) (by decide)

/-- Claim C4: on a tree in BST order `removeTree` of a key that is not stored returns
`NULL` and the very same tree (shape, records, heights, root); in particular the tree left
by any `removeTree` call answers a second removal of the same key that way. -/
theorem removeTree_absent [LinearOrder K] (t : TNode K V) (key : K) (hb : BST t) :
    (key ∉ keys t → removeTree t key = .ok (none, t)) ∧
    (∀ r t1, removeTree t key = .ok (r, t1) → removeTree t1 key = .ok (none, t1)) := by
  refine ⟨removeTree_not_mem t key hb, ?_⟩
  intro r t1 h
  obtain ⟨r', t1', h1, h2, h3⟩ := removeTree_BST t key hb
  rw [h] at h1
  cases h1
  exact removeTree_not_mem t1 key h2 (fun hm => ((h3 key).1 hm).2 rfl)

/-- Claim C4 for the absent key "007", and for "005" removed a second time. -/
theorem removeTree_absent_witness :
    removeTree scenarioTree ['0', '0', '7'] = .ok (none, scenarioTree) ∧
    removeTree (.node 1 ⟨['0', '0', '3'], 3⟩ (.leaf 0) (.leaf 0)) ['0', '0', '5'] =
      .ok (none, .node 1 ⟨['0', '0', '3'], 3⟩ (.leaf 0) (.leaf 0)) :=
  ⟨(removeTree_absent scenarioTree ['0', '0', '7'] (by decide)).1 (by decide),
   (removeTree_absent (.node 2 ⟨['0', '0', '5'], 5⟩
      (.node 1 ⟨['0', '0', '3'], 3⟩ (.leaf 0) (.leaf 0)) (.leaf 0)) ['0', '0', '5']
      (by decide)).2 _ _ rfl⟩

/-- Claim C5: on a tree in BST order `searchTree` returns a location of the tree; the
node there is an internal node holding the searched key exactly when the key is stored,
and otherwise it is an empty leaf, the place where the key belongs in the in-order
sequence. -/
theorem searchTree_correct [LinearOrder K] (t : TNode K V) (key : K) (hb : BST t) :
    plug (searchTree t key).1 (searchTree t key).2 = t ∧
    ((∃ h d l r, (searchTree t key).1 = .node h d l r ∧ d.key = key) ↔ key ∈ keys t) ∧
    (key ∉ keys t → (∃ h, (searchTree t key).1 = .leaf h) ∧
      inorder t = before (searchTree t key).2 ++ after (searchTree t key).2 ∧
      (∀ x ∈ before (searchTree t key).2, x.key < key) ∧
      (∀ x ∈ after (searchTree t key).2, key < x.key)) := by
  rcases hs : searchTree t key with ⟨f, p⟩
  obtain ⟨hp, -, hlo, hhi, hf⟩ := searchTree_spec key t f p hb hs
  refine ⟨hp, ?_, ?_⟩
  · constructor
    · rintro ⟨h, d, l, r, e, -⟩
      simp only at e
      subst e
      exact (searchTree_node_mem key t h d l r p hb hs).2
    · intro hk
      rcases hf with ⟨h, rfl⟩ | hf
      · exact absurd hk (searchTree_leaf_not_mem key t h p hb hs)
      · exact hf
  · intro hk
    rcases hf with ⟨h, rfl⟩ | ⟨h, d, l, r, rfl, -⟩
    · refine ⟨⟨h, rfl⟩, ?_, hlo, hhi⟩
      rw [← hp, inorder_plug]; simp [inorder]
    · exact absurd (searchTree_node_mem key t h d l r p hb hs).2 hk

/-- Claim C5 for the stored key "010" of the 005/010/003 tree. -/
theorem searchTree_correct_witness :
    (searchTree scenarioTree ['0', '1', '0']).1 =
      .node 1 ⟨['0', '1', '0'], 10⟩ (.leaf 0) (.leaf 0) ∧
    ((∃ h d l r, (searchTree scenarioTree ['0', '1', '0']).1 = .node h d l r ∧
      d.key = ['0', '1', '0']) ↔ ['0', '1', '0'] ∈ keys scenarioTree) :=
  ⟨rfl, (searchTree_correct scenarioTree ['0', '1', '0'] (by decide)).2.1⟩

/-- Claim C6: for every sequence of `insertTreeBalanced` calls whose key is not present
at that moment and of `removeTree` calls, started on the tree of `createTree`, every call
returns and the tree after each operation is in BST order, its in-order key sequence
strictly increasing. -/
theorem BST_after_each_operation [LinearOrder K] (ops : List (Op K V))
    (hf : FreshInserts [] ops) :
    ∃ ts, runOps createTree ops = .ok ts ∧ ts.length = ops.length ∧
      ∀ t ∈ ts, BST t ∧ (keys t).Pairwise (· < ·) :=
  runOps_ok ops createTree [] trivial (by simp [createTree, keys, inorder]) hf

/-- Claim C6 on three insertions, a removal, a removal of the absent key and an
insertion of the removed key. -/
theorem BST_after_each_operation_witness :
    ∃ ts, runOps (createTree : TNode (List Char) Nat)
        [.insert ⟨['0', '0', '5'], 5⟩, .insert ⟨['0', '1', '0'], 10⟩,
          .insert ⟨['0', '0', '3'], 3⟩, .remove ['0', '1', '0'], .remove ['0', '1', '0'],
          .insert ⟨['0', '1', '0'], 11⟩] = .ok ts ∧
      ts.length = 6 ∧ ∀ t ∈ ts, BST t ∧ (keys t).Pairwise (· < ·) :=
  BST_after_each_operation _ (by simp [FreshInserts])

/-- Claim C7, evaluated on the code: in the tree built for the points 0, 1, 2, 3, after
`insertSegment` of the interval (1, 2) the query at 1 returns 1 although 1 is an end of
the interval, and after `insertSegment` of (1, 3) the query at 2 returns 0 although 2
lies inside the interval. -/
theorem lineStabQuery_miscounts :
    constructSegmentTree [0, 1, 2, 3] 3 0 3 = .ok segTree0123 ∧
    lineStabQuery (insertSegments segTree0123 [(1, 2)]) 1 = 1 ∧
    countStabbed [(1, 2)] 1 = 0 ∧
    lineStabQuery (insertSegments segTree0123 [(1, 3)]) 2 = 0 ∧
    countStabbed [(1, 3)] 2 = 1 := by
  refine ⟨rfl, ?_, ?_, ?_, ?_⟩ <;> decide

/-- Claim C8, evaluated on the code: in the tree built for the points 0, 3, 5,
`insertSegment( root, 0, 5 )` returns at the root because `segmentStart == root->low` and
changes no counter, so the queries at 0, 3 and 5 all return 0 (the claim has 1 at 3). -/
theorem lineStabQuery_035 :
    constructSegmentTree [0, 3, 5] 3 0 2 = .ok segTree035 ∧
    insertSegment segTree035 0 5 = segTree035 ∧
    lineStabQuery (insertSegment segTree035 0 5) 3 = 0 ∧
    lineStabQuery (insertSegment segTree035 0 5) 0 = 0 ∧
    lineStabQuery (insertSegment segTree035 0 5) 5 = 0 := by
  refine ⟨rfl, ?_, ?_, ?_, ?_⟩ <;> decide

/-- Claim C9: in a tree built by `constructSegmentTree`, for every interval and every
query point, `lineStabQuery` after inserting the interval twice with `insertSegment` is
twice its value after inserting the interval once. -/
theorem lineStabQuery_insert_twice_double {R : Type} [CDouble R] (points : List R)
    (fuel : Nat) (low high : Int) (root : SegNode R)
    (h : constructSegmentTree points fuel low high = .ok root) (s e q : R) :
    lineStabQuery (insertSegment (insertSegment root s e) s e) q =
      2 * lineStabQuery (insertSegment root s e) q := by
  have h0 := constructSegmentTree_cnt points fuel low high root h q
  have h1 := lineStabQuery_insert_twice root s e q
  rw [h0, add_zero] at h1
  exact h1

/-- Claim C9 on the points 0, 1, 2, 3 and the interval (1, 2): the query at 2 gives 1
after one insertion and 2 after two. -/
theorem lineStabQuery_insert_twice_double_witness :
    lineStabQuery (insertSegment (insertSegment segTree0123 1 2) 1 2) 2 =
      2 * lineStabQuery (insertSegment segTree0123 1 2) 2 ∧
    lineStabQuery (insertSegment segTree0123 1 2) 2 = 1 :=
  ⟨lineStabQuery_insert_twice_double [0, 1, 2, 3] 3 0 3 segTree0123 rfl 1 2 2, by decide⟩

/-- Claim C10, evaluated on the code: `encoding` is never initialised, so the call prints
what the first `strcat` finds in the buffer, followed by the bits of the walk.  In the
Huffman tree for `a`, `b`, `c` the bit string 01 leads to the leaf of `b`, and the call
for `b` prints 01 when it finds an empty buffer; when it finds "q7" it prints "q701",
which leads nowhere; and the call for `c`, finding "0", prints 01, which leads to the
leaf of `b`, not that of `c`. -/
theorem printHuffmanEncoding_prints_buffer :
    HuffTree huffABC ∧ (symbols huffABC).Nodup ∧
    follow huffABC ['0', '1'] = some (symbolNode 'b' 1) ∧
    printHuffmanEncoding huffABC 'b' [] = .ok ['0', '1'] ∧
    printHuffmanEncoding huffABC 'b' ['q', '7'] = .ok ['q', '7', '0', '1'] ∧
    follow huffABC ['q', '7', '0', '1'] = none ∧
    printHuffmanEncoding huffABC 'c' ['0'] = .ok ['0', '1'] ∧
    follow huffABC ['0', '1'] ≠ some (symbolNode 'c' 2) := by
  refine ⟨by decide, by decide, rfl, rfl, rfl, rfl, rfl, by decide⟩

/-- The 50 bytes of `encoding`: in the Huffman tree `leftChain 50`, with 51 distinct
symbols, the symbol `A` lies 50 edges below the root, and the fiftieth `strcat` does not
fit into the buffer even when the buffer is found empty. -/
theorem printHuffmanEncoding_overflow :
    HuffTree (leftChain 50) ∧ (symbols (leftChain 50)).Nodup ∧
    (∃ s, (leftChain 50).str? = some s ∧ Char.ofNat 65 ∈ s) ∧
    printHuffmanEncoding (leftChain 50) (Char.ofNat 65) [] = .error .encodingOverflow := by
  refine ⟨by decide, by decide, ⟨_, rfl, by decide⟩, rfl⟩

/-- What `printHuffmanEncoding` prints, for every content of the buffer: in a Huffman
tree (every merged node's string is the left child's followed by the right child's, the
symbol nodes carry pairwise distinct single characters) and for a character `c` of the
root's string, exactly one bit string leads from the root to the symbol node of `c`
(0 = left, 1 = right); whenever the buffer content `enc` found by the first `strcat` and
that bit string have at most 49 characters together, `printHuffmanEncoding` returns
without reading below a symbol node and prints `enc` followed by exactly that bit
string. -/
theorem printHuffmanEncoding_appends (t : HuffNode) (c : Char) (ht : HuffTree t)
    (hnd : (symbols t).Nodup) (hc : ∃ s, t.str? = some s ∧ c ∈ s) :
    ∃ bits w, follow t bits = some (symbolNode c w) ∧
      (∀ b ∈ bits, b = Char.ofNat 48 ∨ b = Char.ofNat 49) ∧
      (∀ bits1 w1, follow t bits1 = some (symbolNode c w1) → bits1 = bits) ∧
      (∀ enc : List Char, enc.length + bits.length ≤ 49 →
        printHuffmanEncoding t c enc = .ok (enc ++ bits)) := by
  obtain ⟨s, hs, hcs⟩ := hc
  rw [(HuffTree.str_eq t ht).1] at hs
  cases hs
  obtain ⟨bits, w, h1, h2, h3⟩ := printHuffmanEncoding_walk t c ht hcs
  refine ⟨bits, w, h1, h2, ?_, h3⟩
  intro bits1 w1 hb
  exact follow_unique t bits1 bits c w1 w ht hnd hb h1

/-! ## Prefix codes: the Kraft inequality -/

theorem kraftSum_cons (w : List Bool) (ws : List (List Bool)) :
    kraftSum (w :: ws) = (1 / 2 : ℚ) ^ w.length + kraftSum ws := by
  simp [kraftSum]

/-- Splitting the code words by their first bit halves the Kraft sum. -/
theorem kraftSum_split (ws : List (List Bool)) (h : [] ∉ ws) :
    kraftSum ws = (kraftSum (ws.filterMap (tailIf false)) +
      kraftSum (ws.filterMap (tailIf true))) / 2 := by
  induction ws with
  | nil => simp [kraftSum]
  | cons w ws ih =>
    have hw : [] ∉ ws := fun hm => h (List.mem_cons_of_mem _ hm)
    cases w with
    | nil => exact absurd (List.mem_cons_self _ _) h
    | cons c w =>
      cases c
      · rw [kraftSum_cons, ih hw]
        simp only [List.filterMap_cons, tailIf, if_true, Bool.false_eq_true, if_false,
          kraftSum_cons, List.length_cons, pow_succ]
        ring
      · rw [kraftSum_cons, ih hw]
        simp only [List.filterMap_cons, tailIf, if_true, Bool.true_eq_false, if_false,
          kraftSum_cons, List.length_cons, pow_succ]
        ring

theorem tailIf_eq_some (b : Bool) (w v : List Bool) (h : tailIf b w = some v) :
    w = b :: v := by
  cases w with
  | nil => simp [tailIf] at h
  | cons c w =>
    simp only [tailIf] at h
    split_ifs at h with e
    cases h
    rw [e]

/-- Kraft inequality: the Kraft sum of pairwise prefix-free code words is at most 1. -/
theorem kraftSum_le_one (N : Nat) (ws : List (List Bool)) (hlen : ∀ w ∈ ws, w.length ≤ N)
    (hpf : ws.Pairwise (fun u v => ¬ u <+: v ∧ ¬ v <+: u)) : kraftSum ws ≤ 1 := by
  induction N generalizing ws with
  | zero =>
    cases ws with
    | nil => simp [kraftSum]
    | cons x rest =>
      cases rest with
      | nil =>
        have hx : x.length = 0 := Nat.le_zero.1 (hlen x (List.mem_cons_self _ _))
        simp [kraftSum, hx]
      | cons y rest =>
        have hx : x = [] :=
          List.length_eq_zero.1 (Nat.le_zero.1 (hlen x (List.mem_cons_self _ _)))
        have := (List.pairwise_cons.1 hpf).1 y (List.mem_cons_self _ _)
        exact absurd (hx ▸ List.nil_prefix) this.1
  | succ N ih =>
    by_cases hnil : [] ∈ ws
    · cases ws with
      | nil => simp [kraftSum]
      | cons x rest =>
        cases rest with
        | nil =>
          have hx : x = [] := (List.mem_singleton.1 hnil).symm
          simp [kraftSum, hx]
        | cons y rest =>
          have h1 := (List.pairwise_cons.1 hpf).1
          rcases List.mem_cons.1 hnil with hx | hx
          · exact absurd (hx ▸ List.nil_prefix) (h1 y (List.mem_cons_self _ _)).1
          · exact absurd List.nil_prefix (h1 [] hx).2
    · rw [kraftSum_split ws hnil]
      have key : ∀ b : Bool, kraftSum (ws.filterMap (tailIf b)) ≤ 1 := by
        intro b
        apply ih
        · intro v hv
          obtain ⟨w, hw, hwv⟩ := List.mem_filterMap.1 hv
          have := hlen w hw
          rw [tailIf_eq_some b w v hwv] at this
          simpa using this
        · refine List.Pairwise.filterMap (tailIf b) ?_ hpf
          intro u v huv u1 hu1 v1 hv1
          rw [tailIf_eq_some b u u1 hu1, tailIf_eq_some b v v1 hv1] at huv
          simp only [List.cons_prefix_cons, true_and] at huv
          exact huv
      have h0 := key false
      have h1 := key true
      linarith

theorem half_pow_ge_a (l : Nat) : (3 / 4 : ℚ) - (l : ℚ) / 4 ≤ (1 / 2 : ℚ) ^ l := by
  rcases l with _ | _ | _ | l
  · norm_num
  · norm_num
  · norm_num
  · have h : (0 : ℚ) ≤ (1 / 2 : ℚ) ^ (l + 1 + 1 + 1) := by positivity
    have h2 : (0 : ℚ) ≤ (l : ℚ) := Nat.cast_nonneg l
    push_cast
    linarith

theorem half_pow_ge_b (l : Nat) : (1 / 2 : ℚ) - (l : ℚ) / 8 ≤ (1 / 2 : ℚ) ^ l := by
  rcases l with _ | _ | _ | _ | l
  · norm_num
  · norm_num
  · norm_num
  · norm_num
  · have h : (0 : ℚ) ≤ (1 / 2 : ℚ) ^ (l + 1 + 1 + 1 + 1) := by positivity
    have h2 : (0 : ℚ) ≤ (l : ℚ) := Nat.cast_nonneg l
    push_cast
    linarith

theorem half_pow_ge_c (l : Nat) : (5 / 16 : ℚ) - (l : ℚ) / 16 ≤ (1 / 2 : ℚ) ^ l := by
  rcases l with _ | _ | _ | _ | _ | l
  · norm_num
  · norm_num
  · norm_num
  · norm_num
  · norm_num
  · have h : (0 : ℚ) ≤ (1 / 2 : ℚ) ^ (l + 1 + 1 + 1 + 1 + 1) := by positivity
    have h2 : (0 : ℚ) ≤ (l : ℚ) := Nat.cast_nonneg l
    push_cast
    linarith

/-- No binary prefix code for the weights a:4, b:2, c:1, d:1 has a total weighted length
below 14. -/
theorem weightedLength_ge_14 (code : Char → List Bool)
    (h : PrefixCode (weightsABCD.map Prod.fst) code) :
    14 ≤ weightedLength weightsABCD code := by
  have hp : ∀ c ∈ ['a', 'b', 'c', 'd'], ∀ d ∈ ['a', 'b', 'c', 'd'], c ≠ d →
      ¬ code c <+: code d := h
  have hk := kraftSum_le_one
    (((code 'a').length + (code 'b').length) + ((code 'c').length + (code 'd').length))
    [code 'a', code 'b', code 'c', code 'd'] (by
      intro w hw
      simp only [List.mem_cons, List.mem_singleton, List.not_mem_nil, or_false] at hw
      rcases hw with rfl | rfl | rfl | rfl <;> omega) (by
      simp only [List.pairwise_cons, List.mem_cons, List.mem_singleton, List.not_mem_nil,
        forall_eq_or_imp, forall_eq, IsEmpty.forall_iff, implies_true, List.Pairwise.nil,
        and_true]
      refine ⟨⟨⟨?_, ?_⟩, ⟨?_, ?_⟩, ⟨?_, ?_⟩⟩, ⟨⟨?_, ?_⟩, ⟨?_, ?_⟩⟩, ⟨?_, ?_⟩⟩ <;>
        exact hp _ (by decide) _ (by decide) (by decide))
  simp only [kraftSum, List.map_cons, List.map_nil, List.sum_cons, List.sum_nil,
    add_zero] at hk
  have ha := half_pow_ge_a (code 'a').length
  have hb := half_pow_ge_b (code 'b').length
  have hc := half_pow_ge_c (code 'c').length
  have hd := half_pow_ge_c (code 'd').length
  have hq : (14 : ℚ) ≤ 4 * ((code 'a').length : ℚ) + 2 * ((code 'b').length : ℚ) +
      ((code 'c').length : ℚ) + ((code 'd').length : ℚ) := by linarith
  have hz : (14 : Int) ≤ 4 * ((code 'a').length : Int) + 2 * ((code 'b').length : Int) +
      ((code 'c').length : Int) + ((code 'd').length : Int) := by exact_mod_cast hq
  simp only [weightedLength, weightsABCD, List.map_cons, List.map_nil, List.sum_cons,
    List.sum_nil]
  linarith

/-! ## Huffman merge loop: lemmas -/

theorem removePQ_least (q : List HuffNode) (p : HuffNode × List HuffNode)
    (h : p ∈ removePQ q) : ∀ y ∈ q, p.1.priority ≤ y.priority := by
  have := (List.mem_filter.1 h).2
  simpa [List.all_eq_true] using this

theorem isEmptyPQ_eq_true (q : List HuffNode) : isEmptyPQ q = true ↔ q = [] := by
  cases q <;> simp [isEmptyPQ]

theorem codeOf_eq_some (root : HuffNode) (c : Char) (enc bits : List Char)
    (h : codeOf root c enc = some bits) : printHuffmanEncoding root c enc = .ok bits := by
  unfold codeOf at h
  split at h
  · rename_i b hb
    cases h
    exact hb
  · cases h

/-- Claim C11, evaluated on the code: for the weights a:4, b:2, c:1, d:1 the merge loop
has a result, and for every tree it can build, whatever nodes of least priority the queue
returns, the strings printed by `printHuffmanEncoding` have total weighted length 14, the
least a binary prefix code for these weights can have, only when every call finds an
empty buffer: when every call finds "q7" in the buffer, which is never initialised, the
total is 30. -/
theorem huffman_abcd_printed_cost :
    (∃ root, root ∈ buildHuffmanTree (leafQueue weightsABCD)) ∧
    (∀ root ∈ buildHuffmanTree (leafQueue weightsABCD),
      codeCost root (fun _ => []) weightsABCD = some 14 ∧
      codeCost root (fun _ => ['q', '7']) weightsABCD = some 30) ∧
    (∀ code : Char → List Bool, PrefixCode (weightsABCD.map Prod.fst) code →
      14 ≤ weightedLength weightsABCD code) ∧
    (∃ code : Char → List Bool, PrefixCode (weightsABCD.map Prod.fst) code ∧
      weightedLength weightsABCD code = 14) := by
  refine ⟨⟨huffABCD, by decide⟩, by decide, weightedLength_ge_14, ?_⟩
  refine ⟨fun c => if c = 'a' then [false] else if c = 'b' then [true, false]
    else if c = 'c' then [true, true, false] else [true, true, true], ?_, ?_⟩
  · simp only [PrefixCode, weightsABCD, List.map_cons, List.map_nil]
    decide
  · simp only [weightedLength, weightsABCD, List.map_cons, List.map_nil]
    decide

/-- Claim C12, evaluated on the code: for the weights a:4, b:2, c:1, d:1, whatever nodes
of least priority the queue returns, the first two nodes taken from the queue are the
leaves of c and d, and they are siblings in every tree built; the strings printed for c
and d have the same length and differ in the last bit only when both calls find the same
content in the buffer, here the empty one: when the call for d finds "q7" in the buffer,
which is never initialised, the two printed strings differ in length. -/
theorem huffman_abcd_printed_siblings :
    (∀ p1 ∈ removePQ (leafQueue weightsABCD), ∀ p2 ∈ removePQ p1.2,
      (p1.1 = symbolNode 'c' 1 ∧ p2.1 = symbolNode 'd' 1) ∨
      (p1.1 = symbolNode 'd' 1 ∧ p2.1 = symbolNode 'c' 1)) ∧
    (∀ root ∈ buildHuffmanTree (leafQueue weightsABCD),
      siblings 'c' 'd' root = true ∧
      differInLastBit (codeOf root 'c' []) (codeOf root 'd' []) = true ∧
      differInLastBit (codeOf root 'c' []) (codeOf root 'd' ['q', '7']) = false) ∧
    printHuffmanEncoding huffABCD 'c' [] = .ok ['1', '1', '0'] ∧
    printHuffmanEncoding huffABCD 'd' ['q', '7'] = .ok ['q', '7', '1', '1', '1'] := by
  refine ⟨by decide, by decide, rfl, rfl⟩

/-- Claim C13, evaluated on the code: with one symbol the queue is empty after the first
`removePQ`, the loop body never runs and the root is the symbol node itself;
`printHuffmanEncoding` on it stops at once and appends no bit, so it prints the buffer as
found, which is never initialised: with "q7" in the buffer it prints "q7", not the empty
bit string. -/
theorem huffman_single_symbol_prints_buffer (ch : Char) (w : Int)
    (hch : ch ≠ Char.ofNat 0) :
    buildHuffmanTree (leafQueue [(ch, w)]) = [symbolNode ch w] ∧
    (∀ fuel, mergeLoop fuel (symbolNode ch w) [] = [symbolNode ch w]) ∧
    (∀ enc, printHuffmanEncoding (symbolNode ch w) ch enc = .ok enc) ∧
    printHuffmanEncoding (symbolNode ch w) ch ['q', '7'] = .ok ['q', '7'] := by
  have hp : ∀ enc, printHuffmanEncoding (symbolNode ch w) ch enc = .ok enc := by
    intro enc
    simp [printHuffmanEncoding, symbolNode, tempstr, hch]
  refine ⟨?_, ?_, hp, hp _⟩
  · simp [buildHuffmanTree, leafQueue, insertPQ, removePQ, picks, mergeLoop, isEmptyPQ]
  · intro fuel
    cases fuel <;> simp [mergeLoop, isEmptyPQ]

/-- Claim C13 for the input "zzz": the symbol `z` with weight 3. -/
theorem huffman_single_symbol_prints_buffer_witness :
    buildHuffmanTree (leafQueue [('z', 3)]) = [symbolNode 'z' 3] ∧
    (∀ fuel, mergeLoop fuel (symbolNode 'z' 3) [] = [symbolNode 'z' 3]) ∧
    (∀ enc, printHuffmanEncoding (symbolNode 'z' 3) 'z' enc = .ok enc) ∧
    printHuffmanEncoding (symbolNode 'z' 3) 'z' ['q', '7'] = .ok ['q', '7'] :=
  huffman_single_symbol_prints_buffer 'z' 3 (by decide)

theorem HeightsExact_treeHeight (t : TNode K V) (h : HeightsExact t) :
    subTreeHeight t = treeHeight t := by
  induction t with
  | leaf h0 => exact h
  | node h0 d l r ihl ihr =>
    obtain ⟨h1, h2, h3⟩ := h
    simp only [subTreeHeight, treeHeight, ← ihl h2, ← ihr h3]
    exact h1

theorem HeightsExact_recomputed (d : Data K V) (l r : TNode K V)
    (hl : HeightsExact l) (hr : HeightsExact r) :
    HeightsExact (.node ((if subTreeHeight l > subTreeHeight r then subTreeHeight l
      else subTreeHeight r) + 1) d l r) := by
  refine ⟨?_, hl, hr⟩
  split_ifs with hc
  · rw [max_eq_left (le_of_lt hc)]; ring
  · rw [max_eq_right (not_lt.1 hc)]; ring

theorem updateHeights_exact (p : Path K V) (h : Int) (d : Data K V) (l r t : TNode K V)
    (hl : HeightsExact l) (hr : HeightsExact r) (hp : ∀ f ∈ p, HeightsExact f.sibling)
    (ht : updateHeights (.node h d l r) p = .ok t) : HeightsExact t := by
  induction p generalizing h d l r with
  | nil =>
    simp only [updateHeights, Except.ok.injEq] at ht
    subst ht
    exact HeightsExact_recomputed d l r hl hr
  | cons f p ih =>
    have hx := HeightsExact_recomputed d l r hl hr
    have hs := hp f (List.mem_cons_self _ _)
    have hp1 : ∀ g ∈ p, HeightsExact g.sibling := fun g hg => hp g (List.mem_cons_of_mem _ hg)
    rw [updateHeights] at ht
    cases f with
    | mk b fh fd fs =>
      cases b
      · simp only [Frame.attach, Bool.false_eq_true, if_false] at ht
        exact ih fh fd fs _ hs hx hp1 ht
      · simp only [Frame.attach, if_true] at ht
        exact ih fh fd _ fs hx hs hp1 ht

theorem updateHeightsAbove_exact (p : Path K V) (c t : TNode K V) (hc : HeightsExact c)
    (hp : ∀ f ∈ p, HeightsExact f.sibling) (ht : updateHeightsAbove c p = .ok t) :
    HeightsExact t := by
  cases p with
  | nil =>
    simp only [updateHeightsAbove, Except.ok.injEq] at ht
    subst ht
    exact hc
  | cons f p =>
    have hs := hp f (List.mem_cons_self _ _)
    have hp1 : ∀ g ∈ p, HeightsExact g.sibling := fun g hg => hp g (List.mem_cons_of_mem _ hg)
    rw [updateHeightsAbove] at ht
    cases f with
    | mk b fh fd fs =>
      cases b
      · simp only [Frame.attach, Bool.false_eq_true, if_false] at ht
        exact updateHeights_exact p fh fd fs c t hs hc hp1 ht
      · simp only [Frame.attach, if_true] at ht
        exact updateHeights_exact p fh fd c fs t hc hs hp1 ht

theorem searchTreeRec_exact [LinearOrder K] (key : K) (t : TNode K V) (p : Path K V)
    (ht : HeightsExact t) (hp : ∀ f ∈ p, HeightsExact f.sibling) :
    HeightsExact (searchTreeRec t key p).1 ∧
      ∀ f ∈ (searchTreeRec t key p).2, HeightsExact f.sibling := by
  induction t generalizing p with
  | leaf h => exact ⟨ht, hp⟩
  | node h d l r ihl ihr =>
    obtain ⟨h1, h2, h3⟩ := ht
    rw [searchTreeRec]
    split_ifs
    · exact ⟨⟨h1, h2, h3⟩, hp⟩
    · refine ihl _ h2 ?_
      intro f hf
      rcases List.mem_cons.1 hf with rfl | hf
      · exact h3
      · exact hp f hf
    · refine ihr _ h3 ?_
      intro f hf
      rcases List.mem_cons.1 hf with rfl | hf
      · exact h2
      · exact hp f hf

theorem removeNextInorder_exact (t : TNode K V) (q : Path K V) (nd : Data K V)
    (c : TNode K V) (q1 : Path K V) (ht : HeightsExact t)
    (hq : ∀ f ∈ q, HeightsExact f.sibling)
    (h : removeNextInorder t q = .ok (nd, c, q1)) :
    HeightsExact c ∧ ∀ f ∈ q1, HeightsExact f.sibling := by
  induction t generalizing q with
  | leaf h0 => simp [removeNextInorder] at h
  | node h0 d l r ihl _ =>
    obtain ⟨-, h2, h3⟩ := ht
    rw [removeNextInorder] at h
    split_ifs at h
    · simp only [Except.ok.injEq, Prod.mk.injEq] at h
      obtain ⟨-, rfl, rfl⟩ := h
      exact ⟨h3, hq⟩
    · refine ihl _ h2 ?_ h
      intro f hf
      rcases List.mem_cons.1 hf with rfl | hf
      · exact h3
      · exact hq f hf

/-- `insertTreeBalanced` keeps the stored heights exact. -/
theorem insertTreeBalanced_exact [LinearOrder K] (t t1 : TNode K V) (d : Data K V)
    (ht : HeightsExact t) (h : insertTreeBalanced t d = .ok t1) : HeightsExact t1 := by
  obtain ⟨-, hp⟩ := searchTreeRec_exact d.key t [] ht (by simp)
  unfold insertTreeBalanced at h
  unfold searchTree at h
  rcases hs : searchTreeRec t d.key [] with ⟨f, p⟩
  rw [hs] at h hp
  cases f with
  | node _ _ _ _ => simp [insertAtTNode] at h
  | leaf h0 =>
    simp only [insertAtTNode, attachLeafNodes] at h
    split at h
    · cases h
    · rename_i t2 ht2
      simp only [rebalanceTree, Except.ok.injEq] at h
      subst h
      exact updateHeights_exact p h0 d (.leaf 0) (.leaf 0) t2 (by simp [HeightsExact])
        (by simp [HeightsExact]) hp ht2

/-- `removeTree` keeps the stored heights exact. -/
theorem removeTree_exact [LinearOrder K] (t t1 : TNode K V) (key : K)
    (r : Option (Data K V)) (ht : HeightsExact t) (h : removeTree t key = .ok (r, t1)) :
    HeightsExact t1 := by
  obtain ⟨hf, hp⟩ := searchTreeRec_exact key t [] ht (by simp)
  unfold removeTree at h
  unfold searchTree at h
  rcases hs : searchTreeRec t key [] with ⟨f, p⟩
  rw [hs] at h hf hp
  cases f with
  | leaf h0 =>
    simp only [Except.ok.injEq, Prod.mk.injEq] at h
    rw [← h.2]
    exact ht
  | node h0 d l rr =>
    obtain ⟨-, hl, hr⟩ := hf
    simp only at h
    split_ifs at h
    · split at h
      · cases h
      · rename_i t2 ht2
        simp only [rebalanceTree, Except.ok.injEq, Prod.mk.injEq] at h
        rw [← h.2]
        exact updateHeightsAbove_exact p rr t2 hr hp ht2
    · split at h
      · cases h
      · rename_i t2 ht2
        simp only [rebalanceTree, Except.ok.injEq, Prod.mk.injEq] at h
        rw [← h.2]
        exact updateHeightsAbove_exact p l t2 hl hp ht2
    · split at h
      · cases h
      · rename_i nd c inner hrem
        obtain ⟨hc, hin⟩ := removeNextInorder_exact rr [] nd c inner hr (by simp) hrem
        split at h
        · cases h
        · rename_i t2 ht2
          simp only [rebalanceTree, Except.ok.injEq, Prod.mk.injEq] at h
          rw [← h.2]
          refine updateHeightsAbove_exact _ c t2 hc ?_ ht2
          intro f hf
          rcases List.mem_append.1 hf with hf | hf
          · exact hin f hf
          · rcases List.mem_cons.1 hf with rfl | hf
            · exact hl
            · exact hp f hf

theorem runOps_exact [LinearOrder K] (ops : List (Op K V)) (t : TNode K V)
    (ts : List (TNode K V)) (ht : HeightsExact t) (h : runOps t ops = .ok ts) :
    ∀ t1 ∈ ts, HeightsExact t1 := by
  induction ops generalizing t ts with
  | nil =>
    simp only [runOps, Except.ok.injEq] at h
    subst h
    simp
  | cons op ops ih =>
    rw [runOps] at h
    split at h
    · cases h
    · rename_i t1 h1
      split at h
      · cases h
      · rename_i ts1 h2
        simp only [Except.ok.injEq] at h
        subst h
        have e1 : HeightsExact t1 := by
          cases op with
          | insert d => exact insertTreeBalanced_exact t t1 d ht h1
          | remove key =>
            simp only [applyOp] at h1
            split at h1
            · cases h1
            · rename_i r t2 h3
              simp only [Except.ok.injEq] at h1
              subst h1
              exact removeTree_exact t _ key r ht h3
        intro x hx
        rcases List.mem_cons.1 hx with rfl | hx
        · exact e1
        · exact ih t1 ts1 e1 h2 x hx

/-! ## Huffman tree: what a returning walk has printed -/

theorem follow_append (t : HuffNode) (a b : List Char) :
    follow t (a ++ b) = (follow t a).bind (fun u => follow u b) := by
  induction a generalizing t with
  | nil => cases t <;> cases b <;> simp [follow]
  | cons x a ih =>
    cases t with
    | leaf => simp [follow]
    | node s w l r =>
      simp only [List.cons_append, follow]
      split_ifs
      · exact ih l
      · exact ih r
      · rfl

/-- When `printHuffmanEncoding` returns in a Huffman tree, it has appended to the buffer
a bit string that leads from the node to the symbol node of `c`. -/
theorem printHuffmanEncoding_ok_follow (t : HuffNode) (c : Char) (enc res : List Char)
    (ht : HuffTree t) (hc0 : c ≠ Char.ofNat 0)
    (h : printHuffmanEncoding t c enc = .ok res) :
    ∃ bits w, res = enc ++ bits ∧ follow t bits = some (symbolNode c w) := by
  induction t generalizing enc with
  | leaf => simp [HuffTree] at ht
  | node str w l r ihl ihr =>
    have hts : tempstr c = [c] := by simp [tempstr, hc0]
    cases l with
    | leaf =>
      cases r with
      | node rs rw rl rr => simp [HuffTree] at ht
      | leaf =>
        rw [printHuffmanEncoding] at h
        split_ifs at h with e
        · simp only [Except.ok.injEq] at h
          subst h
          exact ⟨[], w, by simp, by rw [← e, hts]; rfl⟩
        · simp [HuffNode.str?] at h
    | node ls lw ll lr =>
      cases r with
      | leaf => simp [HuffTree] at ht
      | node rs rw rl rr =>
        obtain ⟨rfl, hl, hr⟩ := ht
        obtain ⟨l1, l2, -⟩ := HuffTree.str_eq _ hl
        obtain ⟨r1, r2, -⟩ := HuffTree.str_eq _ hr
        simp only [HuffNode.str?, Option.some.injEq] at l1 r1
        have hne : tempstr c ≠ ls ++ rs := by
          intro e
          have h1 := tempstr_length c
          have h2 := length_pos_of_ne_nil ls (fun e0 => l2 (l1.symm.trans e0))
          have h3 := length_pos_of_ne_nil rs (fun e0 => r2 (r1.symm.trans e0))
          rw [e, List.length_append] at h1
          omega
        rw [printHuffmanEncoding] at h
        simp only [hne, if_false, HuffNode.str?] at h
        split_ifs at h
        · split at h
          · cases h
          · rename_i enc1 he
            unfold strcatEncoding at he
            split_ifs at he
            simp only [Except.ok.injEq] at he
            subst he
            obtain ⟨bits, w1, e1, e2⟩ := ihl _ hl h
            exact ⟨Char.ofNat 48 :: bits, w1, by simp [e1], by simp [follow, e2]⟩
        · split at h
          · cases h
          · rename_i enc1 he
            unfold strcatEncoding at he
            split_ifs at he
            simp only [Except.ok.injEq] at he
            subst he
            obtain ⟨bits, w1, e1, e2⟩ := ihr _ hr h
            have h49 : (Char.ofNat 49) ≠ Char.ofNat 48 := by decide
            exact ⟨Char.ofNat 49 :: bits, w1, by simp [e1], by simp [follow, e2, h49]⟩

/-- Bit strings that lead to the symbol nodes of two different symbols are not prefixes
of each other. -/
theorem follow_not_prefix (t : HuffNode) (c d : Char) (wc wd : Int) (pc pd : List Char)
    (hcd : c ≠ d) (hc : follow t pc = some (symbolNode c wc))
    (hd : follow t pd = some (symbolNode d wd)) : ¬ pc <+: pd := by
  rintro ⟨rest, rfl⟩
  rw [follow_append, hc] at hd
  simp only [Option.bind_eq_bind, Option.some_bind] at hd
  cases rest with
  | nil =>
    simp only [follow, symbolNode, Option.some.injEq, HuffNode.node.injEq,
      List.cons.injEq, and_true] at hd
    exact hcd hd.1
  | cons b rest =>
    simp only [symbolNode, follow] at hd
    split_ifs at hd
    · exact follow_leaf_ne rest d wd hd
    · exact follow_leaf_ne rest d wd hd

/-! ## Segment tree: construction -/

theorem readPoint_ok {R : Type} (points : List R) (i : Int) (h0 : 0 ≤ i)
    (h1 : i < points.length) : ∃ x, readPoint points i = .ok x := by
  have hlt : i.toNat < points.length := by omega
  refine ⟨points.get ⟨i.toNat, hlt⟩, ?_⟩
  unfold readPoint
  rw [if_pos h0, List.get?_eq_get hlt]

theorem mid_eq (low high : Int) (h : low ≤ high) :
    Int.tdiv (high - low) 2 + low = low + (high - low) / 2 := by
  rw [Int.tdiv_eq_ediv (by omega) (by norm_num)]
  ring

/-- For indices `0 <= low <= high` inside the array `constructSegmentTree` returns, with
the same tree for every fuel above `high - low`. -/
theorem constructSegmentTree_exists {R : Type} (points : List R) (n : Nat) (low high : Int)
    (h0 : 0 ≤ low) (h1 : low ≤ high) (h2 : high < points.length) (hn : high - low ≤ n) :
    ∃ t, ∀ fuel, n < fuel → constructSegmentTree points fuel low high = .ok t := by
  induction n generalizing low high with
  | zero =>
    have e : low = high := by omega
    subst e
    obtain ⟨x, hx⟩ := readPoint_ok points low h0 h2
    refine ⟨.node x x 0 .leaf .leaf, ?_⟩
    intro fuel hf
    cases fuel with
    | zero => omega
    | succ f => simp [constructSegmentTree, hx]
  | succ n ih =>
    obtain ⟨x, hx⟩ := readPoint_ok points low h0 (by omega)
    obtain ⟨y, hy⟩ := readPoint_ok points high (by omega) h2
    by_cases e : low = high
    · subst e
      refine ⟨.node x x 0 .leaf .leaf, ?_⟩
      intro fuel hf
      cases fuel with
      | zero => omega
      | succ f =>
        rw [constructSegmentTree]
        simp only [hx, if_true]
    · have hm := mid_eq low high h1
      obtain ⟨tl, htl⟩ := ih low (Int.tdiv (high - low) 2 + low) h0 (by omega) (by omega)
        (by omega)
      obtain ⟨tr, htr⟩ := ih (Int.tdiv (high - low) 2 + low + 1) high (by omega) (by omega)
        h2 (by omega)
      refine ⟨.node x y 0 tl tr, ?_⟩
      intro fuel hf
      cases fuel with
      | zero => omega
      | succ f =>
        rw [constructSegmentTree]
        simp only [hx, hy, e, if_false, htl f (by omega), htr f (by omega)]

/-- A tree returned by `constructSegmentTree` was built for a range `low <= high` and is
the tree described by `BuiltFor`. -/
theorem constructSegmentTree_sound {R : Type} (points : List R) (fuel : Nat)
    (low high : Int) (t : SegNode R)
    (h : constructSegmentTree points fuel low high = .ok t) :
    low ≤ high ∧ BuiltFor points t low high := by
  induction fuel generalizing low high t with
  | zero => simp [constructSegmentTree] at h
  | succ n ih =>
    rw [constructSegmentTree] at h
    split at h
    · cases h
    · cases h
    · rename_i lo hi hlo hhi
      split_ifs at h with e
      · cases h
        exact ⟨le_of_eq e, hlo, hhi, rfl, by simp [e]⟩
      · split at h
        · cases h
        · cases h
        · rename_i l r hl hr
          cases h
          obtain ⟨a1, a2⟩ := ih _ _ l hl
          obtain ⟨b1, b2⟩ := ih _ _ r hr
          have hle : low ≤ high := by omega
          rw [mid_eq low high hle] at a2 b2
          exact ⟨hle, hlo, hhi, rfl, by simp only [e, if_false]; exact ⟨a2, b2⟩⟩

theorem BuiltFor_bottomCount {R : Type} (points : List R) (t : SegNode R) (low high : Int)
    (h : BuiltFor points t low high) (hle : low ≤ high) :
    (bottomCount t : Int) = high - low + 1 := by
  induction t generalizing low high with
  | leaf => exact absurd h (by simp [BuiltFor])
  | node lo hi cnt l r ihl ihr =>
    obtain ⟨-, -, -, h4⟩ := h
    split_ifs at h4 with e
    · obtain ⟨rfl, rfl⟩ := h4
      simp [bottomCount, e]
    · obtain ⟨hl, hr⟩ := h4
      have i1 := ihl _ _ hl (by omega)
      have i2 := ihr _ _ hr (by omega)
      cases l with
      | leaf => exact absurd hl (by simp [BuiltFor])
      | node _ _ _ _ _ =>
        simp only [bottomCount, Nat.cast_add, i1, i2]
        omega

/-- Claim C14: for every sequence of `insertTreeBalanced` calls whose key is not present
at that moment and of `removeTree` calls, started on the tree of `createTree`, every call
returns and in the tree after each operation every leaf has height 0 and every internal
node's height field is `1 + max(height(left), height(right))`; the root's field is then
the height of the tree. -/
theorem heights_exact_after_each_operation [LinearOrder K] (ops : List (Op K V))
    (hf : FreshInserts [] ops) :
    ∃ ts, runOps createTree ops = .ok ts ∧ ts.length = ops.length ∧
      ∀ t ∈ ts, HeightsExact t ∧ subTreeHeight t = treeHeight t := by
  obtain ⟨ts, h1, h2, -⟩ :=
    runOps_ok ops createTree [] trivial (by simp [createTree, keys, inorder]) hf
  refine ⟨ts, h1, h2, ?_⟩
  intro t ht
  have := runOps_exact ops createTree ts rfl h1 t ht
  exact ⟨this, HeightsExact_treeHeight t this⟩

/-- Claim C14 on two insertions, a removal of the root, an insertion and two removals. -/
theorem heights_exact_after_each_operation_witness :
    ∃ ts, runOps (createTree : TNode (List Char) Nat)
        [.insert ⟨['0', '0', '5'], 5⟩, .insert ⟨['0', '0', '3'], 3⟩,
          .remove ['0', '0', '5'], .insert ⟨['0', '1', '0'], 10⟩,
          .remove ['0', '0', '3'], .remove ['0', '1', '0']] = .ok ts ∧
      ts.length = 6 ∧ ∀ t ∈ ts, HeightsExact t ∧ subTreeHeight t = treeHeight t :=
  heights_exact_after_each_operation _ (by simp [FreshInserts])

/-- Claim C16, evaluated on the code: in the Huffman tree for `a`, `b`, `c` the call for
`c` prints 1 when it finds an empty buffer, and the call for `a` prints 100 when it finds
that 1 in the buffer, which is never initialised: the string printed for `c` is a prefix
of the string printed for `a`. -/
theorem printHuffmanEncoding_prefix_of_other :
    HuffTree huffABC ∧ (symbols huffABC).Nodup ∧
    printHuffmanEncoding huffABC 'c' [] = .ok ['1'] ∧
    printHuffmanEncoding huffABC 'a' ['1'] = .ok ['1', '0', '0'] ∧
    ['1'] <+: ['1', '0', '0'] := by
  refine ⟨by decide, by decide, rfl, rfl, by decide⟩

/-- The bits appended for two different characters: in a Huffman tree, for two different
characters `c` and `d` of the root's string, there are bit strings leading from the root
to the symbol nodes of `c` and of `d`, neither a prefix of the other, and each call
returns and prints the content `enc` it finds in the buffer followed by its bit string
whenever both have at most 49 characters together. -/
theorem printHuffmanEncoding_appended_prefix_free (t : HuffNode) (c d : Char)
    (ht : HuffTree t) (hc : ∃ s, t.str? = some s ∧ c ∈ s)
    (hd : ∃ s, t.str? = some s ∧ d ∈ s) (hcd : c ≠ d) :
    ∃ pc pd wc wd, follow t pc = some (symbolNode c wc) ∧
      follow t pd = some (symbolNode d wd) ∧ ¬ pc <+: pd ∧ ¬ pd <+: pc ∧
      (∀ enc : List Char, enc.length + pc.length ≤ 49 →
        printHuffmanEncoding t c enc = .ok (enc ++ pc)) ∧
      (∀ enc : List Char, enc.length + pd.length ≤ 49 →
        printHuffmanEncoding t d enc = .ok (enc ++ pd)) := by
  obtain ⟨e1, -, -⟩ := HuffTree.str_eq t ht
  obtain ⟨s, hs, hcs⟩ := hc
  obtain ⟨s1, hs1, hds⟩ := hd
  rw [e1] at hs hs1
  cases hs
  cases hs1
  obtain ⟨pc, wc, fc, -, gc⟩ := printHuffmanEncoding_walk t c ht hcs
  obtain ⟨pd, wd, fd, -, gd⟩ := printHuffmanEncoding_walk t d ht hds
  exact ⟨pc, pd, wc, wd, fc, fd, follow_not_prefix t c d wc wd pc pd hcd fc fd,
    follow_not_prefix t d c wd wc pd pc (Ne.symm hcd) fd fc, gc, gd⟩

/-- Claim C17: `rebalanceTree` returns the tree it is given, so `insertTreeBalanced` and
`insertTree` give the same result on every tree and record: the same tree when the key
is not present (both return then on a tree in BST order), the same exit otherwise. -/
theorem insertTreeBalanced_eq_insertTree [LinearOrder K] (t : TNode K V) (d : Data K V) :
    rebalanceTree t = t ∧ insertTreeBalanced t d = insertTree t d ∧
    (BST t → d.key ∉ keys t →
      ∃ t1, insertTree t d = .ok t1 ∧ insertTreeBalanced t d = .ok t1) := by
  have e : insertTreeBalanced t d = insertTree t d := by
    unfold insertTreeBalanced insertTree
    cases insertAtTNode (searchTree t d.key) d <;> rfl
  refine ⟨rfl, e, ?_⟩
  intro hb hk
  obtain ⟨t1, -, -, h1, -⟩ := insertTreeBalanced_not_mem t d hb hk
  exact ⟨t1, e ▸ h1, h1⟩

/-- Claim C17 for the key "007" inserted into the 005/010/003 tree. -/
theorem insertTreeBalanced_eq_insertTree_witness :
    ∃ t1, insertTree scenarioTree ⟨['0', '0', '7'], 7⟩ = .ok t1 ∧
      insertTreeBalanced scenarioTree ⟨['0', '0', '7'], 7⟩ = .ok t1 :=
  (insertTreeBalanced_eq_insertTree scenarioTree ⟨['0', '0', '7'], 7⟩).2.2
    (by decide) (by decide)

/-- Claim C18: for indices `0 <= low <= high` inside the array `constructSegmentTree`
returns (the same tree for every fuel above `high - low`); the tree has `high - low + 1`
bottom nodes, and the node built for an index range `[l, h]` has `low = points[l]`,
`high = points[h]`, `cnt = 0` and, for `l < h`, as children the trees built for
`[l, mid]` and `[mid + 1, h]` with `mid = l + (h - l) / 2`. -/
theorem constructSegmentTree_correct {R : Type} (points : List R) (low high : Int)
    (h0 : 0 ≤ low) (h1 : low ≤ high) (h2 : high < points.length) :
    ∃ t, (∀ fuel, (high - low).toNat < fuel →
        constructSegmentTree points fuel low high = .ok t) ∧
      BuiltFor points t low high ∧ (bottomCount t : Int) = high - low + 1 := by
  obtain ⟨t, ht⟩ := constructSegmentTree_exists points (high - low).toNat low high h0 h1 h2
    (by omega)
  obtain ⟨-, hb⟩ := constructSegmentTree_sound points _ low high t (ht _ (Nat.lt_succ_self _))
  exact ⟨t, ht, hb, BuiltFor_bottomCount points t low high hb h1⟩

/-- Claim C18 for the points 0, 3, 5 and the index range 0..2. -/
theorem constructSegmentTree_correct_witness :
    ∃ t : SegNode Int, (∀ fuel, ((2 : Int) - 0).toNat < fuel →
        constructSegmentTree [0, 3, 5] fuel 0 2 = .ok t) ∧
      BuiltFor [0, 3, 5] t 0 2 ∧ (bottomCount t : Int) = 2 - 0 + 1 :=
  constructSegmentTree_correct [0, 3, 5] 0 2 (by decide) (by decide) (by decide)

/-- Claim C20, evaluated on the code: in the tree built for the points 0, 1, 2, 3 with
the counters left by `insertSegment( root, 1, 2 )` (1 at the nodes [0, 1] and [2, 3]),
`lineStabQuery( root, 1 )` returns 1, the counter of the node [2, 3], which is not on the
path to the point 1; the sum over that path, leaving out the nodes with 1 as `low` or
`high`, is 0. -/
theorem lineStabQuery_off_path :
    constructSegmentTree [0, 1, 2, 3] 3 0 3 = .ok segTree0123 ∧
    insertSegment segTree0123 1 2 =
      .node 0 3 0
        (.node 0 1 1 (.node 0 0 0 .leaf .leaf) (.node 1 1 0 .leaf .leaf))
        (.node 2 3 1 (.node 2 2 0 .leaf .leaf) (.node 3 3 0 .leaf .leaf)) ∧
    lineStabQuery (insertSegment segTree0123 1 2) 1 = 1 ∧
    pathSum (insertSegment segTree0123 1 2) 1 = 0 := by
  refine ⟨rfl, ?_, ?_, ?_⟩ <;> decide

/-! ## Pointer view: basic lemmas -/

theorem ptr_setParent_parent (pp : Option Nat) (n : PNode K V) :
    (n.setParent pp).parent = pp := by
  cases n <;> rfl

theorem ptr_setParent_addr (pp : Option Nat) (n : PNode K V) :
    (n.setParent pp).addr = n.addr := by
  cases n <;> rfl

theorem ptr_setParent_addrs (pp : Option Nat) (n : PNode K V) :
    (n.setParent pp).addrs = n.addrs := by
  cases n <;> rfl

theorem ptr_setParent_edges (pp : Option Nat) (n : PNode K V) (h : n.EdgesOK) :
    (n.setParent pp).EdgesOK := by
  cases n with
  | leaf _ _ _ => trivial
  | node _ _ _ _ _ _ => exact h

theorem ptr_setParent_erase (pp : Option Nat) (n : PNode K V) :
    (n.setParent pp).erase = n.erase := by
  cases n <;> rfl

theorem ptr_isLeaf_erase (n : PNode K V) : n.erase.isLeaf = n.isLeaf := by
  cases n <;> rfl

theorem ptr_subTreeHeight_erase (n : PNode K V) : subTreeHeight n.erase = n.subTreeHeight := by
  cases n <;> rfl

theorem ptr_addr_mem_addrs (n : PNode K V) : n.addr ∈ n.addrs := by
  cases n <;> simp [PNode.addr, PNode.addrs]

theorem ptr_attach_addr (f : PFrame K V) (c : PNode K V) : (f.attach c).addr = f.addr := by
  unfold PFrame.attach
  split_ifs <;> rfl

theorem ptr_attach_parent (f : PFrame K V) (c : PNode K V) :
    (f.attach c).parent = f.pParent := by
  unfold PFrame.attach
  split_ifs <;> rfl

theorem ptr_attach_erase (f : PFrame K V) (c : PNode K V) :
    (f.attach c).erase = f.erase.attach c.erase := by
  unfold PFrame.attach Frame.attach PFrame.erase
  split_ifs <;> rfl

theorem ptr_attach_edges (f : PFrame K V) (c : PNode K V) (hc : c.EdgesOK)
    (hcp : c.parent = some f.addr) (hs : f.sibling.EdgesOK)
    (hsp : f.sibling.parent = some f.addr) : (f.attach c).EdgesOK := by
  unfold PFrame.attach
  split_ifs
  · exact ⟨hcp, hsp, hc, hs⟩
  · exact ⟨hsp, hcp, hs, hc⟩

theorem ptr_attach_addrs (f : PFrame K V) (c : PNode K V) :
    (f.attach c).addrs.Perm (c.addrs ++ (f.addr :: f.sibling.addrs)) := by
  unfold PFrame.attach
  split_ifs
  · simp only [PNode.addrs]
    exact List.perm_middle.symm
  · simp only [PNode.addrs]
    exact (List.Perm.cons _ List.perm_append_comm).trans List.perm_middle.symm

theorem ptr_plug_erase (c : PNode K V) (p : PPath K V) :
    (c.plug p).erase = plug c.erase (p.map PFrame.erase) := by
  induction p generalizing c with
  | nil => rfl
  | cons f p ih => simp [PNode.plug, plug, ih, ptr_attach_erase]

theorem ptr_plug_addrs (c : PNode K V) (p : PPath K V) :
    (c.plug p).addrs.Perm (c.addrs ++ PNode.pathAddrs p) := by
  induction p generalizing c with
  | nil => simp [PNode.plug, PNode.pathAddrs]
  | cons f p ih =>
    refine (ih (f.attach c)).trans ?_
    refine (List.Perm.append_right _ (ptr_attach_addrs f c)).trans ?_
    simp [PNode.pathAddrs, List.append_assoc]

theorem ptr_plug_ok (c : PNode K V) (p : PPath K V) (hc : c.EdgesOK)
    (hp : PNode.PathOK c.parent p) : (c.plug p).EdgesOK ∧ (c.plug p).parent = none := by
  induction p generalizing c with
  | nil => exact ⟨hc, hp⟩
  | cons f p ih =>
    obtain ⟨h1, h2, h3, h4⟩ := hp
    exact ih (f.attach c) (ptr_attach_edges f c hc h1 h3 h2)
      (by rw [ptr_attach_parent]; exact h4)

theorem ptr_plug_addr_cons (c c1 : PNode K V) (f : PFrame K V) (p : PPath K V) :
    (c.plug (f :: p)).addr = (c1.plug (f :: p)).addr := by
  induction p generalizing c c1 f with
  | nil => simp [PNode.plug, ptr_attach_addr]
  | cons g p ih =>
    have := ih (f.attach c) (f.attach c1) g
    simpa [PNode.plug] using this

theorem ptr_plug_addr_congr (c c1 : PNode K V) (p : PPath K V) (h : c.addr = c1.addr) :
    (c.plug p).addr = (c1.plug p).addr := by
  cases p with
  | nil => exact h
  | cons f p => exact ptr_plug_addr_cons c c1 f p

theorem ptr_locate_self (n : PNode K V) (p : PPath K V) :
    n.locate n.addr p = some (n, p) := by
  cases n <;> simp [PNode.locate, PNode.addr]

/-! ## Pointer view: the calls agree with the first embedding and keep the edges -/

/-- `updateHeights` in the pointer view, at an internal node of a consistent location:
it returns, does what the first embedding does, and the result is consistent. -/
theorem ptr_updateHeights_ok (p : PPath K V) (a : Nat) (pp : Option Nat) (h : Int)
    (d : Data K V) (l r : PNode K V) (he : (PNode.node a pp h d l r).EdgesOK)
    (hp : PNode.PathOK pp p) :
    ∃ t, PNode.updateHeights (.node a pp h d l r) p = .ok t ∧
      updateHeights (PNode.node a pp h d l r).erase (p.map PFrame.erase) = .ok t.erase ∧
      t.EdgesOK ∧ t.parent = none ∧
      t.addrs.Perm ((PNode.node a pp h d l r).addrs ++ PNode.pathAddrs p) ∧
      t.addr = ((PNode.node a pp h d l r).plug p).addr := by
  induction p generalizing a pp h d l r with
  | nil =>
    have hpp : pp = none := hp
    subst hpp
    refine ⟨_, rfl, ?_, he, rfl, ?_, rfl⟩
    · simp [PNode.erase, updateHeights, PNode.plug, ptr_subTreeHeight_erase]
    · simp [PNode.plug, PNode.pathAddrs, PNode.addrs]
  | cons f p ih =>
    obtain ⟨h1, h2, h3, h4⟩ := hp
    subst h1
    cases f with
    | mk b fa fpp fh fd fs =>
      cases b
      · have he1 : (PNode.node fa fpp fh fd fs (.node a (some fa)
            ((if l.subTreeHeight > r.subTreeHeight then l.subTreeHeight
              else r.subTreeHeight) + 1) d l r)).EdgesOK := ⟨h2, rfl, h3, he⟩
        obtain ⟨t, t1, t2, t3, t4, t5, t6⟩ := ih fa fpp fh fd fs _ he1 h4
        refine ⟨t, ?_, ?_, t3, t4, ?_, ?_⟩
        · simpa [PNode.updateHeights, PFrame.attach] using t1
        · simpa [PNode.erase, updateHeights, PFrame.erase, Frame.attach,
            ptr_subTreeHeight_erase] using t2
        · rw [List.perm_iff_count]
          intro x
          have := t5.count_eq x
          simp only [PNode.addrs, PNode.pathAddrs, List.count_cons, List.count_append]
            at this ⊢
          omega
        · exact t6.trans (ptr_plug_addr_congr _ _ p rfl)
      · have he1 : (PNode.node fa fpp fh fd (.node a (some fa)
            ((if l.subTreeHeight > r.subTreeHeight then l.subTreeHeight
              else r.subTreeHeight) + 1) d l r) fs).EdgesOK := ⟨rfl, h2, he, h3⟩
        obtain ⟨t, t1, t2, t3, t4, t5, t6⟩ := ih fa fpp fh fd _ fs he1 h4
        refine ⟨t, ?_, ?_, t3, t4, ?_, ?_⟩
        · simpa [PNode.updateHeights, PFrame.attach] using t1
        · simpa [PNode.erase, updateHeights, PFrame.erase, Frame.attach,
            ptr_subTreeHeight_erase] using t2
        · rw [List.perm_iff_count]
          intro x
          have := t5.count_eq x
          simp only [PNode.addrs, PNode.pathAddrs, List.count_cons, List.count_append]
            at this ⊢
          omega
        · exact t6.trans (ptr_plug_addr_congr _ _ p rfl)

theorem ptr_updateHeightsAt_ok (p : PPath K V) (c : PNode K V) (update : Option Nat)
    (hc : c.EdgesOK) (hcp : c.parent = update) (hp : PNode.PathOK update p) :
    ∃ t, PNode.updateHeightsAt update c p = .ok t ∧
      updateHeightsAbove c.erase (p.map PFrame.erase) = .ok t.erase ∧
      t.EdgesOK ∧ t.parent = none ∧ t.addrs.Perm (c.addrs ++ PNode.pathAddrs p) ∧
      t.addr = (c.plug p).addr := by
  cases p with
  | nil =>
    have hu : update = none := hp
    subst hu
    exact ⟨c, rfl, rfl, hc, hcp, by simp [PNode.pathAddrs], rfl⟩
  | cons f p =>
    obtain ⟨h1, h2, h3, h4⟩ := hp
    subst h1
    cases f with
    | mk b fa fpp fh fd fs =>
      cases b
      · obtain ⟨t, t1, t2, t3, t4, t5, t6⟩ :=
          ptr_updateHeights_ok p fa fpp fh fd fs c ⟨h2, hcp, h3, hc⟩ h4
        refine ⟨t, ?_, ?_, t3, t4, ?_, ?_⟩
        · simpa [PNode.updateHeightsAt, PFrame.attach] using t1
        · simpa [updateHeightsAbove, PFrame.erase, Frame.attach, PNode.erase] using t2
        · rw [List.perm_iff_count]
          intro x
          have := t5.count_eq x
          simp only [PNode.addrs, PNode.pathAddrs, List.count_cons, List.count_append]
            at this ⊢
          omega
        · simpa [PNode.plug, PFrame.attach] using t6
      · obtain ⟨t, t1, t2, t3, t4, t5, t6⟩ :=
          ptr_updateHeights_ok p fa fpp fh fd c fs ⟨hcp, h2, hc, h3⟩ h4
        refine ⟨t, ?_, ?_, t3, t4, ?_, ?_⟩
        · simpa [PNode.updateHeightsAt, PFrame.attach] using t1
        · simpa [updateHeightsAbove, PFrame.erase, Frame.attach, PNode.erase] using t2
        · rw [List.perm_iff_count]
          intro x
          have := t5.count_eq x
          simp only [PNode.addrs, PNode.pathAddrs, List.count_cons, List.count_append]
            at this ⊢
          omega
        · simpa [PNode.plug, PFrame.attach] using t6

theorem ptr_searchTreeRec_erase [LinearOrder K] (key : K) (n : PNode K V) (p : PPath K V) :
    ((PNode.searchTreeRec n key p).1.erase,
      (PNode.searchTreeRec n key p).2.map PFrame.erase) =
      searchTreeRec n.erase key (p.map PFrame.erase) := by
  induction n generalizing p with
  | leaf a pp h => rfl
  | node a pp h d l r ihl ihr =>
    simp only [PNode.searchTreeRec, PNode.erase, searchTreeRec]
    split_ifs
    · rfl
    · exact ihl _
    · exact ihr _

/-- The search in the pointer view ends at a consistent location of the same structure. -/
theorem ptr_searchTreeRec_ok [LinearOrder K] (key : K) (n : PNode K V) (p : PPath K V)
    (hn : n.EdgesOK) (hp : PNode.PathOK n.parent p) :
    (PNode.searchTreeRec n key p).1.EdgesOK ∧
    PNode.PathOK (PNode.searchTreeRec n key p).1.parent (PNode.searchTreeRec n key p).2 ∧
    (PNode.searchTreeRec n key p).1.plug (PNode.searchTreeRec n key p).2 = n.plug p ∧
    ((PNode.searchTreeRec n key p).1.addrs ++
      PNode.pathAddrs (PNode.searchTreeRec n key p).2).Perm
      (n.addrs ++ PNode.pathAddrs p) := by
  induction n generalizing p with
  | leaf a pp h => exact ⟨hn, hp, rfl, List.Perm.refl _⟩
  | node a pp h d l r ihl ihr =>
    obtain ⟨e1, e2, e3, e4⟩ := hn
    simp only [PNode.searchTreeRec]
    split_ifs
    · exact ⟨⟨e1, e2, e3, e4⟩, hp, rfl, List.Perm.refl _⟩
    · obtain ⟨g1, g2, g3, g4⟩ := ihl (⟨true, a, pp, h, d, r⟩ :: p) e3 ⟨e1, e2, e4, hp⟩
      refine ⟨g1, g2, by simpa [PNode.plug, PFrame.attach] using g3, ?_⟩
      rw [List.perm_iff_count]
      intro x
      have := g4.count_eq x
      simp only [PNode.addrs, PNode.pathAddrs, List.count_cons, List.count_append]
        at this ⊢
      omega
    · obtain ⟨g1, g2, g3, g4⟩ := ihr (⟨false, a, pp, h, d, l⟩ :: p) e4 ⟨e2, e1, e3, hp⟩
      refine ⟨g1, g2, by simpa [PNode.plug, PFrame.attach] using g3, ?_⟩
      rw [List.perm_iff_count]
      intro x
      have := g4.count_eq x
      simp only [PNode.addrs, PNode.pathAddrs, List.count_cons, List.count_append]
        at this ⊢
      omega

theorem ptr_searchTree_eq [LinearOrder K] (t : PTree K V) (key : K)
    (hroot : t.root = t.top.addr) :
    t.searchTree key = .ok (PNode.searchTreeRec t.top key []) := by
  unfold PTree.searchTree
  rw [hroot, ptr_locate_self]

/-- `insertTreeBalanced` in the pointer view follows the first embedding and keeps the
invariant. -/
theorem ptr_insert_sim [LinearOrder K] (t : PTree K V) (d : Data K V) (t1 : TNode K V)
    (hinv : t.Inv) (h : insertTreeBalanced t.top.erase d = .ok t1) :
    ∃ pt, t.insertTreeBalanced d = .ok pt ∧ pt.top.erase = t1 ∧ pt.Inv := by
  obtain ⟨⟨hroot, hpar, hedges, hnd⟩, hbound⟩ := hinv
  have hs := ptr_searchTree_eq t d.key hroot
  have he := ptr_searchTreeRec_erase d.key t.top []
  obtain ⟨g1, g2, g3, g4⟩ := ptr_searchTreeRec_ok d.key t.top [] hedges hpar
  rcases hres : PNode.searchTreeRec t.top d.key [] with ⟨ins, p⟩
  rw [hres] at he g1 g2 g3 g4 hs
  simp only [List.map_nil] at he
  unfold insertTreeBalanced searchTree at h
  rw [← he] at h
  cases ins with
  | node _ _ _ _ _ _ => simp [PNode.erase, insertAtTNode] at h
  | leaf a pp h0 =>
    obtain ⟨top, u1, u2, u3, u4, u5, u6⟩ := ptr_updateHeights_ok p a pp h0 d
      (.leaf t.next (some a) 0) (.leaf (t.next + 1) (some a) 0) ⟨rfl, rfl, trivial, trivial⟩ g2
    have u2a : updateHeights (attachLeafNodes h0 d) (p.map PFrame.erase) = .ok top.erase := u2
    simp only [PNode.erase, insertAtTNode, u2a, rebalanceTree, Except.ok.injEq] at h
    refine ⟨⟨top, t.root, t.next + 2⟩, ?_, h, ?_⟩
    · simp [PTree.insertTreeBalanced, hs, PTree.insertAtTNode, PNode.attachLeafNodes, u1,
        PTree.rebalanceTree]
    · have hold : (a :: PNode.pathAddrs p).Perm t.top.addrs := by
        simpa [PNode.addrs, PNode.pathAddrs] using g4
      have hnd1 : (a :: PNode.pathAddrs p).Nodup := hold.nodup_iff.2 hnd
      have hb1 : ∀ x ∈ a :: PNode.pathAddrs p, x < t.next := fun x hx =>
        hbound x (hold.subset hx)
      have hnew : top.addrs.Perm (a :: t.next :: (t.next + 1) :: PNode.pathAddrs p) := by
        simpa [PNode.addrs] using u5
      refine ⟨⟨?_, u4, u3, ?_⟩, ?_⟩
      · show t.root = top.addr
        rw [u6, hroot]
        have : (PNode.leaf a pp h0).plug p = t.top := g3
        rw [← this]
        exact ptr_plug_addr_congr _ _ p rfl
      · show top.addrs.Nodup
        rw [hnew.nodup_iff]
        have n1 : t.next ∉ a :: PNode.pathAddrs p := fun hm => lt_irrefl _ (hb1 _ hm)
        have n2 : t.next + 1 ∉ a :: PNode.pathAddrs p := fun hm => by
          have := hb1 _ hm
          omega
        rw [List.nodup_cons] at hnd1
        simp only [List.mem_cons, not_or] at n1 n2
        simp only [List.nodup_cons, List.mem_cons, not_or]
        refine ⟨⟨Ne.symm n1.1, Ne.symm n2.1, hnd1.1⟩, ⟨?_, n1.2⟩, n2.2, hnd1.2⟩
        omega
      · intro x hx
        show x < t.next + 2
        have hx1 := hnew.subset hx
        simp only [List.mem_cons] at hx1
        rcases hx1 with rfl | rfl | rfl | hx1
        · have := hb1 x (List.mem_cons_self _ _)
          omega
        · omega
        · omega
        · have := hb1 x (List.mem_cons_of_mem _ hx1)
          omega

theorem ptr_pathAddrs_append (p q : PPath K V) :
    PNode.pathAddrs (p ++ q) = PNode.pathAddrs p ++ PNode.pathAddrs q := by
  induction p with
  | nil => rfl
  | cons f p ih => simp [PNode.pathAddrs, ih, List.append_assoc]

theorem ptr_plug_append (c : PNode K V) (p q : PPath K V) :
    c.plug (p ++ q) = (c.plug p).plug q := by
  induction p generalizing c with
  | nil => rfl
  | cons f p ih => simp [PNode.plug, ih]

theorem nodup_of_count_le (l1 l2 : List Nat) (n : Nat)
    (h : ∀ x, l1.count x ≤ l2.count x) (hnd : l2.Nodup) (hb : ∀ x ∈ l2, x < n) :
    l1.Nodup ∧ ∀ x ∈ l1, x < n := by
  constructor
  · rw [List.nodup_iff_count_le_one]
    intro x
    exact le_trans (h x) (List.nodup_iff_count_le_one.1 hnd x)
  · intro x hx
    apply hb
    have h1 : 0 < l1.count x := List.count_pos_iff.2 hx
    exact List.count_pos_iff.1 (lt_of_lt_of_le h1 (h x))

/-- `removeNextInorder` in the pointer view on an internal node with consistent edges. -/
theorem ptr_removeNextInorder_ok (l : PNode K V) (a : Nat) (pp : Option Nat) (h : Int)
    (d : Data K V) (r : PNode K V) (he : (PNode.node a pp h d l r).EdgesOK) :
    ∃ nd u c inner extra,
      (∀ q, PNode.removeNextInorder (.node a pp h d l r) q = .ok (nd, u, c, inner ++ q)) ∧
      (∀ q, removeNextInorder (PNode.node a pp h d l r).erase q =
        .ok (nd, c.erase, inner.map PFrame.erase ++ q)) ∧
      c.EdgesOK ∧ c.parent = u ∧
      (∀ q, PNode.PathOK pp q → PNode.PathOK u (inner ++ q)) ∧
      (PNode.node a pp h d l r).addrs.Perm (extra ++ (c.addrs ++ PNode.pathAddrs inner)) := by
  induction l generalizing a pp h d r with
  | leaf la lpp lh =>
    obtain ⟨-, -, -, e4⟩ := he
    refine ⟨d, pp, r.setParent pp, [], [a, la], ?_, ?_, ptr_setParent_edges pp r e4,
      ptr_setParent_parent pp r, fun q hq => hq, ?_⟩
    · intro q
      simp [PNode.removeNextInorder, PNode.isLeaf]
    · intro q
      simp [PNode.erase, removeNextInorder, TNode.isLeaf, ptr_setParent_erase]
    · simp [PNode.addrs, PNode.pathAddrs, ptr_setParent_addrs]
  | node la lpp lh ld ll lr ihl _ =>
    obtain ⟨e1, e2, e3, e4⟩ := he
    obtain ⟨nd, u, c, inner, extra, g1, g2, g3, g4, g5, g6⟩ := ihl la lpp lh ld lr e3
    have hlp : lpp = some a := e1
    refine ⟨nd, u, c, inner ++ [⟨true, a, pp, h, d, r⟩], extra, ?_, ?_, g3, g4, ?_, ?_⟩
    · intro q
      rw [PNode.removeNextInorder]
      simp only [PNode.isLeaf, Bool.false_eq_true, if_false, g1, List.append_assoc,
        List.singleton_append]
    · intro q
      simp only [PNode.erase] at g2 ⊢
      rw [removeNextInorder]
      simp only [TNode.isLeaf, Bool.false_eq_true, if_false, g2, List.map_append,
        List.map_cons, List.map_nil, List.append_assoc, List.singleton_append]
      rfl
    · intro q hq
      rw [List.append_assoc]
      exact g5 _ (hlp ▸ ⟨rfl, e2, e4, hq⟩)
    · rw [List.perm_iff_count]
      intro x
      have := g6.count_eq x
      simp only [PNode.addrs, PNode.pathAddrs, ptr_pathAddrs_append, List.count_cons,
        List.count_append, List.count_nil] at this ⊢
      omega

/-- In a consistent location without shared addresses the tests `pParent == NULL` and
`pParent->pLeft == node` find the slot the node is in. -/
theorem ptr_slotFound (x : PNode K V) (p : PPath K V) (hp : PNode.PathOK x.parent p)
    (hnd : (x.addrs ++ PNode.pathAddrs p).Nodup) :
    PNode.slotFound x.addr x.parent p = true ∧
      PNode.slotFoundRight x.addr x.parent p = true := by
  cases p with
  | nil =>
    have : x.parent = none := hp
    simp [PNode.slotFound, PNode.slotFoundRight, this]
  | cons f p =>
    obtain ⟨h1, -, -, -⟩ := hp
    have hne : f.isLeft = false → f.sibling.addr ≠ x.addr := by
      intro _ e
      have hx := ptr_addr_mem_addrs x
      have hs := ptr_addr_mem_addrs f.sibling
      rw [e] at hs
      exact (List.nodup_append.1 hnd).2.2 hx
        (by simp [PNode.pathAddrs, hs])
    have hne1 : f.isLeft = true → f.sibling.addr ≠ x.addr := by
      intro _ e
      have hx := ptr_addr_mem_addrs x
      have hs := ptr_addr_mem_addrs f.sibling
      rw [e] at hs
      exact (List.nodup_append.1 hnd).2.2 hx
        (by simp [PNode.pathAddrs, hs])
    rw [h1]
    cases hf : f.isLeft
    · simp [PNode.slotFound, PNode.slotFoundRight, hf, hne hf]
    · simp [PNode.slotFound, PNode.slotFoundRight, hf, hne1 hf]

/-- The end of `removeTree` in the pointer view, on a consistent location whose addresses
are among those of the tree before. -/
theorem ptr_finishRemove_ok (t : PTree K V) (root : Nat) (update : Option Nat)
    (c : PNode K V) (p : PPath K V) (ret : Data K V) (hc : c.EdgesOK)
    (hcp : c.parent = update) (hp : PNode.PathOK update p)
    (hroot : root = (c.plug p).addr)
    (hcount : ∀ x, (c.addrs ++ PNode.pathAddrs p).count x ≤ t.top.addrs.count x)
    (hnd : t.top.addrs.Nodup) (hb : ∀ a ∈ t.top.addrs, a < t.next) :
    ∃ pt, t.finishRemove root update c p ret = .ok (some ret, pt) ∧
      updateHeightsAbove c.erase (p.map PFrame.erase) = .ok pt.top.erase ∧ pt.Inv := by
  obtain ⟨top, u1, u2, u3, u4, u5, u6⟩ := ptr_updateHeightsAt_ok p c update hc hcp hp
  refine ⟨⟨top, root, t.next⟩, ?_, u2, ?_⟩
  · simp [PTree.finishRemove, u1, PTree.rebalanceTree]
  · obtain ⟨n1, n2⟩ := nodup_of_count_le top.addrs t.top.addrs t.next
      (fun x => by rw [u5.count_eq x]; exact hcount x) hnd hb
    exact ⟨⟨hroot.trans u6.symm, u4, u3, n1⟩, n2⟩

/-- `removeTree` in the pointer view follows the first embedding and keeps the
invariant. -/
theorem ptr_remove_sim [LinearOrder K] (t : PTree K V) (key : K) (r : Option (Data K V))
    (t1 : TNode K V) (hinv : t.Inv) (h : removeTree t.top.erase key = .ok (r, t1)) :
    ∃ pt, t.removeTree key = .ok (r, pt) ∧ pt.top.erase = t1 ∧ pt.Inv := by
  obtain ⟨⟨hroot, hpar, hedges, hnd⟩, hbound⟩ := hinv
  have hs := ptr_searchTree_eq t key hroot
  have he := ptr_searchTreeRec_erase key t.top []
  obtain ⟨g1, g2, g3, g4⟩ := ptr_searchTreeRec_ok key t.top [] hedges hpar
  rcases hres : PNode.searchTreeRec t.top key [] with ⟨del, p⟩
  rw [hres] at he g1 g2 g3 g4 hs
  simp only [List.map_nil] at he
  simp only [PNode.pathAddrs, List.append_nil] at g4
  unfold removeTree searchTree at h
  rw [← he] at h
  cases del with
  | leaf a pp h0 =>
    simp only [PNode.erase, Except.ok.injEq, Prod.mk.injEq] at h
    refine ⟨t, ?_, h.2, ⟨hroot, hpar, hedges, hnd⟩, hbound⟩
    simp [PTree.removeTree, hs, h.1]
  | node a pp h0 d l rr =>
    obtain ⟨e1, e2, e3, e4⟩ := g1
    have hpp : PNode.PathOK pp p := g2
    have hslot := (ptr_slotFound (.node a pp h0 d l rr) p g2 (g4.nodup_iff.2 hnd)).1
    have hslot1 : PNode.slotFound a pp p = true := hslot
    have hplug : (PNode.node a pp h0 d l rr).plug p = t.top := g3
    simp only [PNode.erase, ptr_isLeaf_erase] at h
    by_cases hl : l.isLeaf = true
    · simp only [hl, if_true] at h
      obtain ⟨pt, f1, f2, f3⟩ := ptr_finishRemove_ok t (if pp.isNone then rr.addr else t.root)
        pp (rr.setParent pp) p d (ptr_setParent_edges pp rr e4) (ptr_setParent_parent pp rr)
        hpp (by
          cases p with
          | nil =>
            have : pp = none := hpp
            simp [this, PNode.plug, ptr_setParent_addr]
          | cons f p =>
            have : pp = some f.addr := hpp.1
            simp only [this, Option.isNone_some, Bool.false_eq_true, if_false]
            rw [hroot, ← hplug]
            exact ptr_plug_addr_cons _ _ f p) (by
          intro x
          rw [← g4.count_eq x]
          simp only [PNode.addrs, ptr_setParent_addrs, List.count_cons, List.count_append]
          omega) hnd hbound
      rw [ptr_setParent_erase] at f2
      simp only [f2, rebalanceTree, Except.ok.injEq, Prod.mk.injEq] at h
      refine ⟨pt, ?_, h.2, f3⟩
      simp only [Option.isNone_iff_eq_none] at f1
      rw [← h.1]
      simp [PTree.removeTree, hs, hl, hslot1, f1]
    · by_cases hr : rr.isLeaf = true
      · simp only [hl, hr, if_true, if_false, Bool.false_eq_true] at h
        obtain ⟨pt, f1, f2, f3⟩ := ptr_finishRemove_ok t
          (if pp.isNone then l.addr else t.root)
          pp (l.setParent pp) p d (ptr_setParent_edges pp l e3) (ptr_setParent_parent pp l)
          hpp (by
            cases p with
            | nil =>
              have : pp = none := hpp
              simp [this, PNode.plug, ptr_setParent_addr]
            | cons f p =>
              have : pp = some f.addr := hpp.1
              simp only [this, Option.isNone_some, Bool.false_eq_true, if_false]
              rw [hroot, ← hplug]
              exact ptr_plug_addr_cons _ _ f p) (by
            intro x
            rw [← g4.count_eq x]
            simp only [PNode.addrs, ptr_setParent_addrs, List.count_cons, List.count_append]
            omega) hnd hbound
        rw [ptr_setParent_erase] at f2
        simp only [f2, rebalanceTree, Except.ok.injEq, Prod.mk.injEq] at h
        refine ⟨pt, ?_, h.2, f3⟩
        simp only [Option.isNone_iff_eq_none] at f1
        rw [← h.1]
        simp [PTree.removeTree, hs, hl, hr, hslot1, f1]
      · simp only [hl, hr, if_false, Bool.false_eq_true] at h
        cases rr with
        | leaf _ _ _ => simp [PNode.isLeaf] at hr
        | node ra rpp rh rd rl rrr =>
          obtain ⟨nd, u, c, inner, extra, k1, k2, k3, k4, k5, k6⟩ :=
            ptr_removeNextInorder_ok rl ra rpp rh rd rrr e4
          have hrp : rpp = some a := e2
          have k2a := k2 []
          simp only [List.append_nil] at k2a
          obtain ⟨pt, f1, f2, f3⟩ := ptr_finishRemove_ok t t.root u c
            (inner ++ ⟨false, a, pp, h0, nd, l⟩ :: p) d k3 k4
            (k5 _ (hrp ▸ ⟨rfl, e1, e3, hpp⟩)) (by
              rw [hroot, ← hplug, ptr_plug_append]
              show _ = (((PFrame.mk false a pp h0 nd l).attach (c.plug inner)).plug p).addr
              exact ptr_plug_addr_congr _ _ p rfl) (by
              intro x
              rw [← g4.count_eq x]
              have := k6.count_eq x
              simp only [PNode.addrs, PNode.pathAddrs, ptr_pathAddrs_append,
                List.count_cons, List.count_append] at this ⊢
              omega) hnd hbound
          have f2a : updateHeightsAbove c.erase
              (inner.map PFrame.erase ++ ⟨false, h0, nd, l.erase⟩ :: p.map PFrame.erase) =
              .ok pt.top.erase := by
            simpa [PFrame.erase] using f2
          simp only [k2a, f2a, rebalanceTree, Except.ok.injEq, Prod.mk.injEq] at h
          refine ⟨pt, ?_, h.2, f3⟩
          have k1a := k1 []
          simp only [List.append_nil] at k1a
          rw [← h.1]
          simp [PTree.removeTree, hs, hl, hr, k1a, f1]

/-- The tree of `createTree` in the pointer view satisfies the invariant. -/
theorem ptr_createTree_inv : (PTree.createTree : PTree K V).Inv := by
  refine ⟨⟨rfl, rfl, ?_, ?_⟩, ?_⟩
  · simp [PTree.createTree, PNode.EdgesOK]
  · simp [PTree.createTree, PNode.addrs]
  · simp [PTree.createTree, PNode.addrs]

/-- A run in the pointer view follows the run of the first embedding step by step and
keeps the invariant after every operation. -/
theorem ptr_runOps_sim [LinearOrder K] (ops : List (Op K V)) (t : PTree K V)
    (ts : List (TNode K V)) (hinv : t.Inv) (h : runOps t.top.erase ops = .ok ts) :
    ∃ pts, t.runOps ops = .ok pts ∧ pts.map (fun s => s.top.erase) = ts ∧
      ∀ s ∈ pts, s.Inv := by
  induction ops generalizing t ts with
  | nil =>
    simp only [runOps, Except.ok.injEq] at h
    exact ⟨[], rfl, by simpa using h, by simp⟩
  | cons op ops ih =>
    rw [runOps] at h
    rcases h1 : applyOp t.top.erase op with e | t1
    · rw [h1] at h; cases h
    · rw [h1] at h
      simp only at h
      rcases h2 : runOps t1 ops with e | ts1
      · rw [h2] at h; cases h
      · rw [h2] at h
        simp only [Except.ok.injEq] at h
        have step : ∃ pt, t.applyOp op = .ok pt ∧ pt.top.erase = t1 ∧ pt.Inv := by
          cases op with
          | insert d =>
            obtain ⟨pt, a1, a2, a3⟩ := ptr_insert_sim t d t1 hinv h1
            exact ⟨pt, a1, a2, a3⟩
          | remove key =>
            simp only [applyOp] at h1
            rcases h3 : removeTree t.top.erase key with e | ⟨r, t2⟩
            · rw [h3] at h1; cases h1
            · rw [h3] at h1
              simp only [Except.ok.injEq] at h1
              obtain ⟨pt, a1, a2, a3⟩ := ptr_remove_sim t key r t2 hinv h3
              exact ⟨pt, by simp [PTree.applyOp, a1], a2.trans h1, a3⟩
        obtain ⟨pt, a1, a2, a3⟩ := step
        obtain ⟨pts, b1, b2, b3⟩ := ih pt ts1 a3 (a2 ▸ h2)
        refine ⟨pt :: pts, ?_, ?_, ?_⟩
        · simp [PTree.runOps, a1, b1]
        · simp [a2, b2, h]
        · intro s hs
          rcases List.mem_cons.1 hs with rfl | hs
          · exact a3
          · exact b3 s hs

theorem ptr_setParent_subTreeHeight (pp : Option Nat) (n : PNode K V) :
    (n.setParent pp).subTreeHeight = n.subTreeHeight := by
  cases n <;> rfl

theorem ite_gt_eq_max (x y : Int) : (if x > y then x else y) = max x y := by
  split_ifs <;> omega

/-- On a consistent chain of parents `updateHeights` changes stored heights only: the
height of the node it starts at becomes one more than the larger child height, and every
node above keeps its side, address, `pParent` field, record and other subtree. -/
theorem ptr_updateHeights_shape (p : PPath K V) (a : Nat) (pp : Option Nat) (h : Int)
    (d : Data K V) (l r : PNode K V) (hp : PNode.PathOK pp p) :
    ∃ p1, List.Forall₂ PFrame.SameLinks p p1 ∧
      PNode.updateHeights (.node a pp h d l r) p =
        .ok (PNode.plug (.node a pp (max l.subTreeHeight r.subTreeHeight + 1) d l r) p1) := by
  induction p generalizing a pp h d l r with
  | nil =>
    have hpp : pp = none := hp
    subst hpp
    exact ⟨[], List.Forall₂.nil, by simp [PNode.updateHeights, ite_gt_eq_max]⟩
  | cons f p ih =>
    obtain ⟨h1, -, -, h4⟩ := hp
    subst h1
    cases hf : f.isLeft with
    | true =>
      obtain ⟨p1, e1, e2⟩ := ih f.addr f.pParent f.height f.data
        (.node a (some f.addr) (max l.subTreeHeight r.subTreeHeight + 1) d l r) f.sibling h4
      refine ⟨⟨true, f.addr, f.pParent, max (max l.subTreeHeight r.subTreeHeight + 1)
        f.sibling.subTreeHeight + 1, f.data, f.sibling⟩ :: p1,
        List.Forall₂.cons ⟨hf.symm, rfl, rfl, rfl, rfl⟩ e1, ?_⟩
      rw [PNode.updateHeights]
      simp only [if_true, PFrame.attach, hf, ite_gt_eq_max, PNode.plug]
      exact e2
    | false =>
      obtain ⟨p1, e1, e2⟩ := ih f.addr f.pParent f.height f.data f.sibling
        (.node a (some f.addr) (max l.subTreeHeight r.subTreeHeight + 1) d l r) h4
      refine ⟨⟨false, f.addr, f.pParent, max f.sibling.subTreeHeight
        (max l.subTreeHeight r.subTreeHeight + 1) + 1, f.data, f.sibling⟩ :: p1,
        List.Forall₂.cons ⟨hf.symm, rfl, rfl, rfl, rfl⟩ e1, ?_⟩
      rw [PNode.updateHeights]
      simp only [if_true, PFrame.attach, hf, ite_gt_eq_max, PNode.plug,
        Bool.false_eq_true, if_false]
      exact e2

/-- Frames that differ in stored heights only have the same records before and after
them in the in-order sequence. -/
theorem ptr_sameLinks_before_after (p p1 : PPath K V)
    (h : List.Forall₂ PFrame.SameLinks p p1) :
    before (p1.map PFrame.erase) = before (p.map PFrame.erase) ∧
      after (p1.map PFrame.erase) = after (p.map PFrame.erase) := by
  induction h with
  | nil => exact ⟨rfl, rfl⟩
  | cons hfg _ ih =>
    obtain ⟨s1, -, -, s4, s5⟩ := hfg
    simp [before, after, PFrame.erase, ih.1, ih.2, s1, s4, s5]

/-- Claim C22: for an internal node `x` (address `ax`) at a consistent location whose
left child `y` (address `ay`) is internal, `rightRotate( x )` returns and yields `y` in
the slot `x` occupied, with the `pParent` field `x` had; `y->pLeft` is unchanged,
`y->pRight` is `x`, `x->pParent` is `y`, `x->pLeft` is the former `y->pRight` with
`pParent` now `x`, and `x->pRight` is unchanged; the nodes above keep their links, and
the in-order sequence of records of the whole tree is the one before the call.
`leftRotate` is the mirror image. -/
theorem rotate_structure (ax ay : Nat) (ppx ppy : Option Nat) (hx hy : Int)
    (dx dy : Data K V) (A B C : PNode K V) (p : PPath K V) (hp : PNode.PathOK ppx p)
    (hnd : (ax :: ay :: (A.addrs ++ B.addrs ++ C.addrs ++ PNode.pathAddrs p)).Nodup) :
    (∃ p1 top, List.Forall₂ PFrame.SameLinks p p1 ∧
      PNode.rightRotate (.node ax ppx hx dx (.node ay ppy hy dy A B) C) p = .ok top ∧
      top = PNode.plug (.node ay ppx
        (max A.subTreeHeight (max B.subTreeHeight C.subTreeHeight + 1) + 1) dy A
        (.node ax (some ay) (max B.subTreeHeight C.subTreeHeight + 1) dx
          (B.setParent (some ax)) C)) p1 ∧
      inorder top.erase =
        inorder (PNode.plug (.node ax ppx hx dx (.node ay ppy hy dy A B) C) p).erase) ∧
    (∃ p1 top, List.Forall₂ PFrame.SameLinks p p1 ∧
      PNode.leftRotate (.node ax ppx hx dx A (.node ay ppy hy dy B C)) p = .ok top ∧
      top = PNode.plug (.node ay ppx
        (max (max A.subTreeHeight B.subTreeHeight + 1) C.subTreeHeight + 1) dy
        (.node ax (some ay) (max A.subTreeHeight B.subTreeHeight + 1) dx A
          (B.setParent (some ax))) C) p1 ∧
      inorder top.erase =
        inorder (PNode.plug (.node ax ppx hx dx A (.node ay ppy hy dy B C)) p).erase) := by
  constructor
  · have hslot := (ptr_slotFound (.node ax ppx hx dx (.node ay ppy hy dy A B) C) p hp
      (by simpa [PNode.addrs, List.append_assoc] using hnd)).1
    have hslot1 : PNode.slotFound ax ppx p = true := hslot
    obtain ⟨p1, e1, e2⟩ := ptr_updateHeights_shape p ay ppx hy dy A
      (.node ax (some ay) (max (B.setParent (some ax)).subTreeHeight C.subTreeHeight + 1) dx
        (B.setParent (some ax)) C) hp
    rw [ptr_setParent_subTreeHeight] at e2
    refine ⟨p1, _, e1, ?_, rfl, ?_⟩
    · rw [PNode.rightRotate, if_pos hslot1, PNode.updateHeights, if_pos rfl]
      simp only [PFrame.attach, Bool.false_eq_true, if_false, ite_gt_eq_max,
        ptr_setParent_subTreeHeight]
      exact e2
    · obtain ⟨b1, b2⟩ := ptr_sameLinks_before_after p p1 e1
      rw [ptr_plug_erase, ptr_plug_erase, inorder_plug, inorder_plug, b1, b2]
      simp [PNode.erase, inorder, ptr_setParent_erase]
  · have hperm : ((PNode.node ax ppx hx dx A (.node ay ppy hy dy B C)).addrs ++
        PNode.pathAddrs p).Perm
        (ax :: ay :: (A.addrs ++ B.addrs ++ C.addrs ++ PNode.pathAddrs p)) := by
      rw [List.perm_iff_count]
      intro x
      simp only [PNode.addrs, List.count_cons, List.count_append]
      omega
    have hslot := (ptr_slotFound (.node ax ppx hx dx A (.node ay ppy hy dy B C)) p hp
      (hperm.nodup_iff.2 hnd)).2
    have hslot1 : PNode.slotFoundRight ax ppx p = true := hslot
    obtain ⟨p1, e1, e2⟩ := ptr_updateHeights_shape p ay ppx hy dy
      (.node ax (some ay) (max A.subTreeHeight (B.setParent (some ax)).subTreeHeight + 1) dx
        A (B.setParent (some ax))) C hp
    rw [ptr_setParent_subTreeHeight] at e2
    refine ⟨p1, _, e1, ?_, rfl, ?_⟩
    · rw [PNode.leftRotate, if_pos hslot1, PNode.updateHeights, if_pos rfl]
      simp only [PFrame.attach, if_true, ite_gt_eq_max, ptr_setParent_subTreeHeight]
      exact e2
    · obtain ⟨b1, b2⟩ := ptr_sameLinks_before_after p p1 e1
      rw [ptr_plug_erase, ptr_plug_erase, inorder_plug, inorder_plug, b1, b2]
      simp [PNode.erase, inorder, ptr_setParent_erase]

/-- Claim C22 at the node "003" (address 1) of the tree with the keys "005", "003", "001":
`rightRotate` puts "001" (address 3) into the left slot of "005" (address 0). -/
theorem rotate_structure_witness :
    ∃ p1 top,
      List.Forall₂ PFrame.SameLinks
        [⟨true, 0, none, 3, ⟨['0', '0', '5'], 5⟩, .leaf 2 (some 0) 0⟩] p1 ∧
      PNode.rightRotate (.node 1 (some 0) 2 ⟨['0', '0', '3'], 3⟩
          (.node 3 (some 1) 1 ⟨['0', '0', '1'], 1⟩ (.leaf 5 (some 3) 0) (.leaf 6 (some 3) 0))
          (.leaf 4 (some 1) 0))
        [⟨true, 0, none, 3, ⟨['0', '0', '5'], 5⟩, .leaf 2 (some 0) 0⟩] = .ok top ∧
      top = PNode.plug (.node 3 (some 0) 2 ⟨['0', '0', '1'], 1⟩ (.leaf 5 (some 3) 0)
        (.node 1 (some 3) 1 ⟨['0', '0', '3'], 3⟩ (.leaf 6 (some 1) 0) (.leaf 4 (some 1) 0)))
        p1 ∧
      inorder top.erase = inorder descendingPTree.top.erase :=
  (rotate_structure 1 3 (some 0) (some 1) 2 1 ⟨['0', '0', '3'], 3⟩ ⟨['0', '0', '1'], 1⟩
    (.leaf 5 (some 3) 0) (.leaf 6 (some 3) 0) (.leaf 4 (some 1) 0)
    [⟨true, 0, none, 3, ⟨['0', '0', '5'], 5⟩, .leaf 2 (some 0) 0⟩]
    (by simp [PNode.PathOK, PNode.parent, PNode.EdgesOK]) (by decide)).1

/-- Claim C21, evaluated on the code: in the tree built for the points 0, 1, 2, 3 the
queries at 1 and at 2 return 0, and after `insertSegment( root, 1, 2 )` both return 1,
although 1 and 2 are the ends of the inserted interval. -/
theorem insertSegment_changes_boundary_queries :
    constructSegmentTree [0, 1, 2, 3] 3 0 3 = .ok segTree0123 ∧
    lineStabQuery segTree0123 1 = 0 ∧
    lineStabQuery (insertSegment segTree0123 1 2) 1 = 1 ∧
    lineStabQuery segTree0123 2 = 0 ∧
    lineStabQuery (insertSegment segTree0123 1 2) 2 = 1 := by
  refine ⟨rfl, ?_, ?_, ?_, ?_⟩ <;> decide

/-- Claim C23 as stated fails: after the insertions of "005", "003", "001" the call
`rightRotate( t->root )` returns and promotes "003" (address 1), which then has no
parent, while `t->root` still holds the address 0 of the old root "005", whose `pParent`
is now the promoted node; the same with `leftRotate( t->root )` after the insertions of
"1", "2", "3", where the node at address 2 is promoted.  The rotations get the node only
and do not write `t->root`. -/
theorem rotate_root_leaves_root_field :
    (∃ a b, PTree.runOps PTree.createTree descendingOps = .ok [a, b, descendingPTree]) ∧
    (∃ t, PTree.rightRotate descendingPTree descendingPTree.root = .ok t ∧
      t.top.addr = 1 ∧ t.top.parent = none ∧ t.root = 0 ∧
      (t.top.locate t.root []).map (fun x => x.1.parent) = some (some 1) ∧
      ¬ t.ParentsOK) ∧
    (∃ a b, PTree.runOps PTree.createTree ascendingOps = .ok [a, b, ascendingPTree]) ∧
    (∃ t, PTree.leftRotate ascendingPTree ascendingPTree.root = .ok t ∧
      t.top.addr = 2 ∧ t.top.parent = none ∧ t.root = 0 ∧
      (t.top.locate t.root []).map (fun x => x.1.parent) = some (some 2) ∧
      ¬ t.ParentsOK) := by
  refine ⟨⟨_, _, rfl⟩, ⟨_, rfl, rfl, rfl, rfl, rfl, ?_⟩, ⟨_, _, rfl⟩,
    ⟨_, rfl, rfl, rfl, rfl, rfl, ?_⟩⟩
  · intro h
    exact absurd h.1 (by decide)
  · intro h
    exact absurd h.1 (by decide)

/-- Claim C24: for every sequence of `insertTreeBalanced` calls whose key is not present
at that moment and of `removeTree` calls, started on the tree of `createTree`, every call
returns, and after each operation `t->root` is the top node and has no parent, the
`pParent` field of every other node (internal or leaf) holds the address of the node
whose `pLeft` or `pRight` it is, and no two nodes share an address.  The trees are those
of the first embedding, with addresses and `pParent` fields added. -/
theorem parents_consistent_after_each_operation [LinearOrder K] (ops : List (Op K V))
    (hf : FreshInserts [] ops) :
    ∃ states, PTree.runOps (PTree.createTree : PTree K V) ops = .ok states ∧
      states.length = ops.length ∧
      runOps createTree ops = .ok (states.map (fun s => s.top.erase)) ∧
      ∀ s ∈ states, s.ParentsOK := by
  obtain ⟨ts, h1, h2, -⟩ :=
    runOps_ok ops createTree [] trivial (by simp [createTree, keys, inorder]) hf
  obtain ⟨pts, g1, g2, g3⟩ := ptr_runOps_sim ops PTree.createTree ts ptr_createTree_inv h1
  refine ⟨pts, g1, ?_, ?_, fun s hs => (g3 s hs).1⟩
  · rw [← h2, ← g2, List.length_map]
  · rw [g2]; exact h1

/-- Claim C24 on three insertions, a removal of the root, a removal of an absent key and
an insertion of the removed key. -/
theorem parents_consistent_after_each_operation_witness :
    ∃ states, PTree.runOps (PTree.createTree : PTree (List Char) Nat)
        [.insert ⟨['0', '0', '5'], 5⟩, .insert ⟨['0', '1', '0'], 10⟩,
          .insert ⟨['0', '0', '3'], 3⟩, .remove ['0', '0', '5'], .remove ['0', '0', '5'],
          .insert ⟨['0', '0', '5'], 6⟩] = .ok states ∧
      states.length = 6 ∧
      runOps createTree
        [.insert ⟨['0', '0', '5'], 5⟩, .insert ⟨['0', '1', '0'], 10⟩,
          .insert ⟨['0', '0', '3'], 3⟩, .remove ['0', '0', '5'], .remove ['0', '0', '5'],
          .insert ⟨['0', '0', '5'], 6⟩] = .ok (states.map (fun s => s.top.erase)) ∧
      ∀ s ∈ states, s.ParentsOK :=
  parents_consistent_after_each_operation _ (by simp [FreshInserts])

/-- Claim C25: on a tree in BST order, for a record whose key is stored, `insertTree`
and `insertTreeBalanced` both end in the exit of `insertAtTNode` ("inserting into
non-leaf node"): `searchTree`, which only reads the tree, returns the internal node
holding that key, and the test `!ins->leaf` comes before `attachLeafNodes`,
`updateHeights` and the assignment of `ins->data`, so no node is changed. -/
theorem insert_present_key_rejected [LinearOrder K] (t : TNode K V) (d : Data K V)
    (hb : BST t) (hk : d.key ∈ keys t) :
    insertTree t d = .error .insertNonLeaf ∧
    insertTreeBalanced t d = .error .insertNonLeaf ∧
    (∃ h e l r, (searchTree t d.key).1 = .node h e l r ∧ e.key = d.key) ∧
    plug (searchTree t d.key).1 (searchTree t d.key).2 = t := by
  rcases hs : searchTree t d.key with ⟨f, p⟩
  obtain ⟨hp, -, -, -, hf⟩ := searchTree_spec d.key t f p hb hs
  rcases hf with ⟨h, rfl⟩ | ⟨h, e, l, r, rfl, he⟩
  · exact absurd hk (searchTree_leaf_not_mem d.key t h p hb hs)
  · refine ⟨?_, ?_, ⟨h, e, l, r, rfl, he⟩, hp⟩
    · simp [insertTree, hs, insertAtTNode]
    · simp [insertTreeBalanced, hs, insertAtTNode]

/-- Claim C25 for a second record with the key "005" and the 005/010/003 tree. -/
theorem insert_present_key_rejected_witness :
    insertTree scenarioTree ⟨['0', '0', '5'], 7⟩ = .error .insertNonLeaf ∧
    insertTreeBalanced scenarioTree ⟨['0', '0', '5'], 7⟩ = .error .insertNonLeaf ∧
    (∃ h e l r, (searchTree scenarioTree ['0', '0', '5']).1 = .node h e l r ∧
      e.key = ['0', '0', '5']) ∧
    plug (searchTree scenarioTree ['0', '0', '5']).1
      (searchTree scenarioTree ['0', '0', '5']).2 = scenarioTree :=
  insert_present_key_rejected scenarioTree ⟨['0', '0', '5'], 7⟩ (by decide) (by decide)

/-- Claim C23, amended: `rightRotate( t->root )`, for a root whose left child is
internal, returns and makes the promoted child the top node, the one without parent,
with the old root as its right child; the field `t->root` is not written by the rotation
and still holds the address of the old root, so setting it to the promoted child is left
to the caller.  `leftRotate` is the mirror image. -/
theorem rotate_root_promotes_child (ax ay next : Nat) (ppy : Option Nat) (hx hy : Int)
    (dx dy : Data K V) (A B C : PNode K V) (hne : ax ≠ ay) :
    (∃ t, PTree.rightRotate ⟨.node ax none hx dx (.node ay ppy hy dy A B) C, ax, next⟩ ax =
        .ok t ∧
      t.top = .node ay none
        (max A.subTreeHeight (max B.subTreeHeight C.subTreeHeight + 1) + 1) dy A
        (.node ax (some ay) (max B.subTreeHeight C.subTreeHeight + 1) dx
          (B.setParent (some ax)) C) ∧
      t.root = ax ∧ t.root ≠ t.top.addr) ∧
    (∃ t, PTree.leftRotate ⟨.node ax none hx dx A (.node ay ppy hy dy B C), ax, next⟩ ax =
        .ok t ∧
      t.top = .node ay none
        (max (max A.subTreeHeight B.subTreeHeight + 1) C.subTreeHeight + 1) dy
        (.node ax (some ay) (max A.subTreeHeight B.subTreeHeight + 1) dx A
          (B.setParent (some ax))) C ∧
      t.root = ax ∧ t.root ≠ t.top.addr) := by
  constructor
  · refine ⟨⟨_, ax, next⟩, ?_, rfl, rfl, hne⟩
    simp [PTree.rightRotate, PNode.locate, PNode.rightRotate, PNode.slotFound,
      PNode.updateHeights, PFrame.attach, PNode.plug, ite_gt_eq_max,
      ptr_setParent_subTreeHeight]
    rfl
  · refine ⟨⟨_, ax, next⟩, ?_, rfl, rfl, hne⟩
    simp [PTree.leftRotate, PNode.locate, PNode.leftRotate, PNode.slotFoundRight,
      PNode.updateHeights, PFrame.attach, PNode.plug, ite_gt_eq_max,
      ptr_setParent_subTreeHeight]
    rfl

/-- The amended claim C23 at the root of the tree with the keys "005", "003", "001": the
node "003" at address 1 is promoted, the field `t->root` stays 0. -/
theorem rotate_root_promotes_child_witness :
    (∃ t, PTree.rightRotate descendingPTree 0 = .ok t ∧
      t.top = .node 1 none 2 ⟨['0', '0', '3'], 3⟩
        (.node 3 (some 1) 1 ⟨['0', '0', '1'], 1⟩ (.leaf 5 (some 3) 0) (.leaf 6 (some 3) 0))
        (.node 0 (some 1) 1 ⟨['0', '0', '5'], 5⟩ (.leaf 4 (some 0) 0) (.leaf 2 (some 0) 0)) ∧
      t.root = 0 ∧ t.root ≠ t.top.addr) :=
  (rotate_root_promotes_child 0 1 7 (some 0) 3 2 ⟨['0', '0', '5'], 5⟩ ⟨['0', '0', '3'], 3⟩
    (.node 3 (some 1) 1 ⟨['0', '0', '1'], 1⟩ (.leaf 5 (some 3) 0) (.leaf 6 (some 3) 0))
    (.leaf 4 (some 1) 0) (.leaf 2 (some 0) 0) (by decide)).1

/-- A sequence of insertions in the pointer view follows the first embedding and keeps
the invariant. -/
theorem ptr_insertAll_sim [LinearOrder K] (ds : List (Data K V)) (t : PTree K V)
    (t1 : TNode K V) (hinv : t.Inv) (h : insertAll t.top.erase ds = .ok t1) :
    ∃ pt, t.insertAll ds = .ok pt ∧ pt.top.erase = t1 ∧ pt.Inv := by
  induction ds generalizing t with
  | nil =>
    simp only [insertAll, Except.ok.injEq] at h
    exact ⟨t, rfl, h, hinv⟩
  | cons d ds ih =>
    rw [insertAll] at h
    rcases h1 : insertTreeBalanced t.top.erase d with e | t2
    · rw [h1] at h; cases h
    · rw [h1] at h
      simp only at h
      obtain ⟨pt, a1, a2, a3⟩ := ptr_insert_sim t d t2 hinv h1
      obtain ⟨pt1, b1, b2, b3⟩ := ih pt a3 (a2 ▸ h)
      exact ⟨pt1, by simp [PTree.insertAll, a1, b1], b2, b3⟩

/-- A sequence of removals in the pointer view follows the first embedding, returns the
same records and keeps the invariant. -/
theorem ptr_removeAll_sim [LinearOrder K] (ks : List K) (t : PTree K V)
    (rs : List (Option (Data K V))) (t1 : TNode K V) (hinv : t.Inv)
    (h : removeAll t.top.erase ks = .ok (rs, t1)) :
    ∃ pt, t.removeAll ks = .ok (rs, pt) ∧ pt.top.erase = t1 ∧ pt.Inv := by
  induction ks generalizing t rs with
  | nil =>
    simp only [removeAll, Except.ok.injEq, Prod.mk.injEq] at h
    exact ⟨t, by simp [PTree.removeAll, h.1], h.2, hinv⟩
  | cons k ks ih =>
    rw [removeAll] at h
    rcases h1 : removeTree t.top.erase k with e | ⟨r, t2⟩
    · rw [h1] at h; cases h
    · rw [h1] at h
      simp only at h
      rcases h2 : removeAll t2 ks with e | ⟨rs1, t3⟩
      · rw [h2] at h; cases h
      · rw [h2] at h
        simp only [Except.ok.injEq, Prod.mk.injEq] at h
        obtain ⟨hr, ht⟩ := h
        subst ht
        subst hr
        obtain ⟨pt, a1, a2, a3⟩ := ptr_remove_sim t k r t2 hinv h1
        obtain ⟨pt1, b1, b2, b3⟩ := ih pt rs1 a3 (a2 ▸ h2)
        exact ⟨pt1, by simp [PTree.removeAll, a1, b1], b2, b3⟩

/-- Claim C2: for records with pairwise distinct keys inserted with `insertTreeBalanced`
into the tree of `createTree`, and the keys removed with `removeTree` in any order `ks`,
every call returns, each `removeTree` returns the record inserted under its key, and
after the last removal the tree is a single leaf: the node `t->root` points to has the
leaf flag set and its `pParent` field is `NULL`. -/
theorem insert_remove_round_trip [LinearOrder K] (ds : List (Data K V)) (ks : List K)
    (hnd : (ds.map Data.key).Nodup) (hperm : ks.Perm (ds.map Data.key)) :
    ∃ t rs t1, PTree.insertAll PTree.createTree ds = .ok t ∧
      PTree.removeAll t ks = .ok (rs, t1) ∧
      List.Forall₂ (fun k r => ∃ d ∈ ds, d.key = k ∧ r = some d) ks rs ∧
      t1.root = t1.top.addr ∧ t1.top.isLeaf = true ∧ t1.top.parent = none := by
  obtain ⟨e, rs, e1, h1, h2, h3, h4⟩ := round_trip_erased ds ks hnd hperm
  obtain ⟨pt, a1, a2, a3⟩ := ptr_insertAll_sim ds PTree.createTree e ptr_createTree_inv h1
  obtain ⟨pt1, b1, b2, b3⟩ := ptr_removeAll_sim ks pt rs e1 a3 (a2 ▸ h2)
  refine ⟨pt, rs, pt1, a1, b1, h3, b3.1.1, ?_, b3.1.2.1⟩
  rw [← ptr_isLeaf_erase, b2]
  exact h4

/-- The round trip of claim C2 on the keys "005", "010", "003", removed in the order
"005", "003", "010": the first removal takes out the root, which has two children. -/
theorem insert_remove_round_trip_witness :
    ∃ t rs t1, PTree.insertAll PTree.createTree scenarioData = .ok t ∧
      PTree.removeAll t [['0', '0', '5'], ['0', '0', '3'], ['0', '1', '0']] = .ok (rs, t1) ∧
      List.Forall₂ (fun k r => ∃ d ∈ scenarioData, d.key = k ∧ r = some d)
        [['0', '0', '5'], ['0', '0', '3'], ['0', '1', '0']] rs ∧
      t1.root = t1.top.addr ∧ t1.top.isLeaf = true ∧ t1.top.parent = none :=
  insert_remove_round_trip scenarioData [['0', '0', '5'], ['0', '0', '3'], ['0', '1', '0']]
    (by decide) (by decide)

end Tree
